import Mathlib

/-!
Verification of the PDF-annotator service (`annotate.py`).

Strings are modelled as `List Char`.  Python's `json.loads` is modelled by a
fuel-based recursive-descent parser over the JSON grammar (numbers are
modelled on the integer fragment; no claim in this development touches
non-integer numerals).  Machine floats in the renderer are modelled by exact
rationals.
-/

namespace SchoolAuto

/-- Characters that are awkward to write literally. -/
def cQuote : Char := Char.ofNat 34

def cApos : Char := Char.ofNat 39

def cBackslash : Char := Char.ofNat 92

def cLB : Char := Char.ofNat 123

def cRB : Char := Char.ofNat 125

def cLS : Char := Char.ofNat 91

def cRS : Char := Char.ofNat 93

def cNL : Char := Char.ofNat 10

def cCR : Char := Char.ofNat 13

def cTab : Char := Char.ofNat 9

def cTick : Char := Char.ofNat 96

/-- String literal to char-list. -/
def S (s : String) : List Char := s.data

/-- Python `str.strip` whitespace set (ASCII fragment). -/
def isPyWs (c : Char) : Bool :=
  c = ' ' || c = cTab || c = cNL || c = cCR || c = Char.ofNat 11 || c = Char.ofNat 12

/-- Python `str.strip()`. -/
def pyStrip (s : List Char) : List Char :=
  ((s.dropWhile isPyWs).reverse.dropWhile isPyWs).reverse

/-- Python `str.find(c)`: index of first occurrence, `-1` if absent. -/
def pyFind (c : Char) (s : List Char) : Int :=
  match s.findIdx? (fun x => x = c) with
  | some i => (i : Int)
  | none => -1

/-- Python `str.rfind(c)`: index of last occurrence, `-1` if absent. -/
def pyRfind (c : Char) (s : List Char) : Int :=
  match s.reverse.findIdx? (fun x => x = c) with
  | some i => ((s.length - 1 - i : Nat) : Int)
  | none => -1

/-- Python slice `s[a:b]` for `0 ≤ a`, `0 ≤ b` (the only case the source uses
after a successful `find`). -/
def pySlice (a b : Int) (s : List Char) : List Char :=
  (s.drop a.toNat).take (b - a).toNat

/-- Replace every occurrence of a character (Python `str.replace` on a
one-character pattern, and `re.sub` on a one-character regex). -/
def replaceAll (a b : Char) (s : List Char) : List Char :=
  s.map (fun c => if c = a then b else c)

/-! ## JSON values and `json.loads` -/

inductive Json where
  | null : Json
  | bool : Bool → Json
  | num : Int → Json
  | str : List Char → Json
  | arr : List Json → Json
  | obj : List (List Char × Json) → Json

/-- Python dict insertion: overwrite an existing key in place, else append. -/
def dictInsert (kvs : List (List Char × Json)) (k : List Char) (v : Json) :
    List (List Char × Json) :=
  match kvs with
  | [] => [(k, v)]
  | (k', v') :: rest =>
      if k' = k then (k', v) :: rest else (k', v') :: dictInsert rest k v

/-- JSON whitespace. -/
def isJsonWs (c : Char) : Bool :=
  c = ' ' || c = cTab || c = cNL || c = cCR

def skipWs (s : List Char) : List Char := s.dropWhile isJsonWs

def hexVal (c : Char) : Option Nat :=
  if c.isDigit then some (c.toNat - 48)
  else if 'a' ≤ c ∧ c ≤ 'f' then some (c.toNat - 87)
  else if 'A' ≤ c ∧ c ≤ 'F' then some (c.toNat - 55)
  else none

def consStr (c : Char) (o : Option (List Char × List Char)) :
    Option (List Char × List Char) :=
  o.map (fun p => (c :: p.1, p.2))

/-- Body of a JSON string literal, after the opening quote.  Strict mode:
raw control characters are rejected, as CPython's `json.loads` does. -/
def parseStringBody : List Char → Option (List Char × List Char)
  | [] => none
  | c :: r =>
    if c = cQuote then some ([], r)
    else if c = cBackslash then
      match r with
      | [] => none
      | e :: r2 =>
        if e = cQuote then consStr cQuote (parseStringBody r2)
        else if e = cBackslash then consStr cBackslash (parseStringBody r2)
        else if e = '/' then consStr '/' (parseStringBody r2)
        else if e = 'b' then consStr (Char.ofNat 8) (parseStringBody r2)
        else if e = 'f' then consStr (Char.ofNat 12) (parseStringBody r2)
        else if e = 'n' then consStr cNL (parseStringBody r2)
        else if e = 'r' then consStr cCR (parseStringBody r2)
        else if e = 't' then consStr cTab (parseStringBody r2)
        else if e = 'u' then
          match r2 with
          | h1 :: h2 :: h3 :: h4 :: r3 =>
            match hexVal h1, hexVal h2, hexVal h3, hexVal h4 with
            | some a, some b, some c2, some d =>
                consStr (Char.ofNat (((a * 16 + b) * 16 + c2) * 16 + d))
                  (parseStringBody r3)
            | _, _, _, _ => none
          | _ => none
        else none
    else if c.toNat < 32 then none
    else consStr c (parseStringBody r)

def digitsToNat (ds : List Char) : Nat :=
  ds.foldl (fun a c => a * 10 + (c.toNat - 48)) 0

/-- An unsigned JSON integer numeral (leading zeros rejected; a following
`.`/`e`/`E` — i.e. a float — is outside the modelled fragment). -/
def parseNumTok (s : List Char) : Option (Int × List Char) :=
  let ds := s.takeWhile Char.isDigit
  let r := s.drop ds.length
  if ds = [] then none
  else if 1 < ds.length ∧ ds.headD '0' = '0' then none
  else
    match r with
    | c :: _ => if c = '.' ∨ c = 'e' ∨ c = 'E' then none else some ((digitsToNat ds : Int), r)
    | [] => some ((digitsToNat ds : Int), r)

/-- Recognise a literal keyword tail (`rue`, `alse`, `ull`). -/
def expectLit (lit : List Char) (mk : Json) (s : List Char) : Option (Json × List Char) :=
  if lit.isPrefixOf s then some (mk, s.drop lit.length) else none

mutual

def parseVal : Nat → List Char → Option (Json × List Char)
  | 0, _ => none
  | f + 1, s =>
    match skipWs s with
    | [] => none
    | c :: r =>
      if c = cLB then
        match parseObjItems f r with
        | some (kvs, r2) => some (.obj kvs, r2)
        | none => none
      else if c = cLS then
        match parseArrItems f r with
        | some (xs, r2) => some (.arr xs, r2)
        | none => none
      else if c = cQuote then
        match parseStringBody r with
        | some (t, r2) => some (.str t, r2)
        | none => none
      else if c = '-' then
        match parseNumTok r with
        | some (n, r2) => some (.num (-n), r2)
        | none => none
      else if c.isDigit then
        match parseNumTok (c :: r) with
        | some (n, r2) => some (.num n, r2)
        | none => none
      else if c = 't' then expectLit ['r', 'u', 'e'] (.bool true) r
      else if c = 'f' then expectLit ['a', 'l', 's', 'e'] (.bool false) r
      else if c = 'n' then expectLit ['u', 'l', 'l'] .null r
      else none

/-- After an opening `{`. -/
def parseObjItems : Nat → List Char → Option (List (List Char × Json) × List Char)
  | 0, _ => none
  | f + 1, s =>
    match skipWs s with
    | [] => none
    | c :: r => if c = cRB then some ([], r) else parseObjMembers f (c :: r) []

def parseObjMembers : Nat → List Char → List (List Char × Json) →
    Option (List (List Char × Json) × List Char)
  | 0, _, _ => none
  | f + 1, s, acc =>
    match skipWs s with
    | [] => none
    | c :: r =>
      if c = cQuote then
        match parseStringBody r with
        | none => none
        | some (k, r1) =>
          match skipWs r1 with
          | c2 :: r2 =>
            if c2 = ':' then
              match parseVal f r2 with
              | none => none
              | some (v, r3) =>
                match skipWs r3 with
                | c3 :: r4 =>
                  if c3 = ',' then parseObjMembers f r4 (dictInsert acc k v)
                  else if c3 = cRB then some (dictInsert acc k v, r4)
                  else none
                | [] => none
            else none
          | [] => none
      else none

/-- After an opening `[`. -/
def parseArrItems : Nat → List Char → Option (List Json × List Char)
  | 0, _ => none
  | f + 1, s =>
    match skipWs s with
    | [] => none
    | c :: r => if c = cRS then some ([], r) else parseArrMembers f (c :: r) []

def parseArrMembers : Nat → List Char → List Json → Option (List Json × List Char)
  | 0, _, _ => none
  | f + 1, s, acc =>
    match parseVal f s with
    | none => none
    | some (v, r) =>
      match skipWs r with
      | c :: r2 =>
        if c = ',' then parseArrMembers f r2 (acc ++ [v])
        else if c = cRS then some (acc ++ [v], r2)
        else none
      | [] => none

end

/-- Python `json.loads`: one value, surrounding whitespace, nothing trailing. -/
def json_loads (s : List Char) : Option Json :=
  match parseVal (2 * s.length + 2) s with
  | some (v, r) => if skipWs r = [] then some v else none
  | none => none

/-! ## Python `repr` / `str` of values (used in diagnostics and `_clean`) -/

def hexDig (n : Nat) : Char :=
  if n < 10 then Char.ofNat (48 + n) else Char.ofNat (87 + n)

def pyReprCharIn (q : Char) (c : Char) : List Char :=
  if c = cBackslash then [cBackslash, cBackslash]
  else if c = q then [cBackslash, q]
  else if c = cNL then [cBackslash, 'n']
  else if c = cCR then [cBackslash, 'r']
  else if c = cTab then [cBackslash, 't']
  else if c.toNat < 32 ∨ c.toNat = 127 then
    [cBackslash, 'x', hexDig (c.toNat / 16), hexDig (c.toNat % 16)]
  else [c]

/-- The quote character `repr` picks: single-quoted unless the string holds a
single quote and no double quote. -/
def pyReprQuoteCh (s : List Char) : Char :=
  if cApos ∈ s ∧ cQuote ∉ s then cQuote else cApos

/-- Python `repr` of a string. -/
def pyReprStr (s : List Char) : List Char :=
  pyReprQuoteCh s :: (s.map (pyReprCharIn (pyReprQuoteCh s))).flatten ++ [pyReprQuoteCh s]

def intChars (n : Int) : List Char :=
  if n < 0 then '-' :: Nat.toDigits 10 n.natAbs else Nat.toDigits 10 n.toNat

def joinComma (parts : List (List Char)) : List Char :=
  List.intercalate (S (r", ")) parts

mutual

/-- Python `repr` of a parsed JSON value. -/
def pyReprJ : Json → List Char
  | .null => S (r"None")
  | .bool true => S (r"True")
  | .bool false => S (r"False")
  | .num n => intChars n
  | .str s => pyReprStr s
  | .arr xs => cLS :: joinComma (pyReprJList xs) ++ [cRS]
  | .obj kvs => cLB :: joinComma (pyReprJKvs kvs) ++ [cRB]

def pyReprJList : List Json → List (List Char)
  | [] => []
  | x :: xs => pyReprJ x :: pyReprJList xs

def pyReprJKvs : List (List Char × Json) → List (List Char)
  | [] => []
  | (k, v) :: kvs => (pyReprStr k ++ ':' :: ' ' :: pyReprJ v) :: pyReprJKvs kvs

end

/-- Python `str` of a parsed JSON value. -/
def pyStr (j : Json) : List Char :=
  match j with
  | .str s => s
  | _ => pyReprJ j

/-- Python `str.lower` (ASCII fragment). -/
def pyLower (s : List Char) : List Char := s.map Char.toLower

/-! ## Regex-operation models used by `_repair_json` -/

/-- The optional `json` language tag right after a fence marker. -/
def dropJsonTag : List Char → List Char
  | 'j' :: 's' :: 'o' :: 'n' :: r => r
  | r => r

/-- Fuelled scan for `re.sub` deleting every code-fence marker (three
backticks), greedily together with a following `json` language tag.  Every
step consumes at least one character, so the fuel used by `fenceStrip`
below never runs out. -/
def fenceStripF : Nat → List Char → List Char
  | 0, s => s
  | _, [] => []
  | f + 1, c :: c2 :: c3 :: rrest =>
    if c = cTick ∧ c2 = cTick ∧ c3 = cTick then fenceStripF f (dropJsonTag rrest)
    else c :: fenceStripF f (c2 :: c3 :: rrest)
  | f + 1, c :: rest => c :: fenceStripF f rest

def fenceStrip (s : List Char) : List Char := fenceStripF (s.length + 1) s

def isWordCh (c : Char) : Bool := c.isAlphanum || c = '_'

def nlPrevOk (c : Char) : Bool := c = cQuote || isWordCh c

def nlNextOk : List Char → Bool
  | [] => false
  | c :: _ => c = cQuote || isWordCh c || c = ' '

def prevOkB : Option Char → Bool
  | some p => nlPrevOk p
  | none => false

def nlCollapseAux : Option Char → List Char → List Char
  | _, [] => []
  | prev, c :: rest =>
    if c = cNL then
      (if prevOkB prev && nlNextOk rest then ' ' else cNL) :: nlCollapseAux (some cNL) rest
    else c :: nlCollapseAux (some c) rest

/-- `re.sub` with a newline between a quote/word lookbehind and a
quote/word/space lookahead replaced by a space; the lookarounds inspect the
original text. -/
def nlCollapse (s : List Char) : List Char := nlCollapseAux none s

def nonBrace (c : Char) : Bool := !(c = cLB) && !(c = cRB)

/-- Fuelled scan for `re.findall` of brace-delimited fragments: a `\x7b`, a
nonempty run of non-brace characters, then a `\x7d`; leftmost,
non-overlapping.  Every step consumes at least one character, so the fuel
used by `findObjs` below never runs out. -/
def findObjsF : Nat → List Char → List (List Char)
  | 0, _ => []
  | _, [] => []
  | f + 1, c :: rest =>
    if c = cLB then
      match rest.drop ((rest.takeWhile nonBrace).length) with
      | c2 :: tail =>
        if c2 = cRB ∧ rest.takeWhile nonBrace ≠ [] then
          (cLB :: (rest.takeWhile nonBrace ++ [cRB])) :: findObjsF f tail
        else findObjsF f (rest.drop ((rest.takeWhile nonBrace).length))
      | [] => []
    else findObjsF f rest

def findObjs (s : List Char) : List (List Char) := findObjsF (s.length + 1) s

/-! ## `_repair_json` -/

/-- The `first \x5b` / `last \x5d` candidate extraction. -/
def repairChunk (raw : List Char) : List Char :=
  if pyFind cLS raw ≠ -1 ∧ pyRfind cRS raw > pyFind cLS raw then
    pySlice (pyFind cLS raw) (pyRfind cRS raw + 1) raw
  else raw

/-- Truncation-recovery candidate: cut at the last closing brace and append a
closing bracket. -/
def truncCandidate (chunk : List Char) : List Char :=
  if pyRfind cRB chunk ≠ -1 then
    chunk.take (pyRfind cRB chunk + 1).toNat ++ [cRS]
  else chunk

/-- First candidate that `json.loads` accepts. -/
def firstParse : List (List Char) → Option Json
  | [] => none
  | c :: cs =>
    match json_loads c with
    | some v => some v
    | none => firstParse cs

/-- Strategy 6: parse each regex-extracted fragment, newlines flattened,
as-is first and then with single quotes normalised to double quotes. -/
def strat6 (chunk : List Char) : List Json :=
  (findObjs chunk).filterMap (fun ob =>
    match json_loads (replaceAll cNL ' ' ob) with
    | some v => some v
    | none => json_loads (replaceAll cApos cQuote (replaceAll cNL ' ' ob)))

def repairFailMsg (raw : List Char) : List Char :=
  S (r"JSON repair failed. Raw output: ") ++ pyReprStr (raw.take 300)

/-- `_repair_json`: multi-strategy recovery of a JSON value from malformed
model output.  The raised `ValueError` is modelled as the `error` branch. -/
def repair_json (raw : List Char) : Except (List Char) Json :=
  match json_loads raw with
  | some v => .ok v
  | none =>
    match firstParse [repairChunk raw,
                      pyStrip (fenceStrip (repairChunk raw)),
                      nlCollapse (repairChunk raw),
                      truncCandidate (repairChunk raw)] with
    | some v => .ok v
    | none =>
      match strat6 (repairChunk raw) with
      | [] => .error (repairFailMsg raw)
      | ps => .ok (.arr ps)

/-! ## `_clean` — the Annotation Validator -/

/-- A validated record.  The `annot` field models the `annotation` key; the
`themes` field is by construction always a list of strings. -/
structure CleanRec where
  type : List Char
  quote : List Char
  annot : List Char
  themes : List (List Char)
deriving DecidableEq

def validTypes : List (List Char) :=
  [S (r"notation"), S (r"definition"), S (r"question"), S (r"reaction"),
   S (r"device"), S (r"theme"), S (r"summary")]

/-- Python `dict.get(k, default)` on a parsed JSON object. -/
def dictGetD (kvs : List (List Char × Json)) (k : List Char) (dflt : Json) : Json :=
  match kvs.lookup k with
  | some v => v
  | none => dflt

/-- `item.get("themes")` then the `isinstance(..., list)` guard and
element-wise `str`. -/
def themesOf (kvs : List (List Char × Json)) : List (List Char) :=
  match kvs.lookup (S (r"themes")) with
  | some (.arr xs) => xs.map pyStr
  | _ => []

/-- `str(item.get("type", "notation")).lower().strip()`. -/
def cleanTypeRaw (kvs : List (List Char × Json)) : List Char :=
  pyStrip (pyLower (pyStr (dictGetD kvs (S (r"type")) (.str (S (r"notation"))))))

def cleanRecOf (kvs : List (List Char × Json)) : CleanRec :=
  { type := if cleanTypeRaw kvs ∈ validTypes then cleanTypeRaw kvs else S (r"notation")
  , quote := pyStrip (replaceAll cNL ' ' (pyStr (dictGetD kvs (S (r"quote")) (.str []))))
  , annot := pyStrip (replaceAll cNL ' ' (pyStr (dictGetD kvs (S (r"annotation")) (.str []))))
  , themes := themesOf kvs }

/-- `_clean`: keep only dict entries, normalise each.  Total by construction,
mirroring the source (every operation used is total in Python as well). -/
def clean (raw_list : List Json) : List CleanRec :=
  raw_list.filterMap (fun item =>
    match item with
    | .obj kvs => some (cleanRecOf kvs)
    | _ => none)

/-- The `TypeError` message for `for x in v` over a non-iterable `v`. -/
def notIterableMsg (tyname : List Char) : List Char :=
  cApos :: tyname ++ cApos :: S (r" object is not iterable")

/-- `_clean` applied to whatever `_repair_json` returned.  Python iterates the
value with a `for` loop: lists iterate elements, dicts iterate keys, strings
iterate characters, and numbers / booleans / `None` raise `TypeError` —
which `_call_ollama` does *not* catch as `ValueError`. -/
def cleanTop : Json → Except (List Char) (List CleanRec)
  | .arr xs => .ok (clean xs)
  | .obj kvs => .ok (clean (kvs.map (fun kv => Json.str kv.fst)))
  | .str s => .ok (clean (s.map (fun c => Json.str [c])))
  | .num _ => .error (notIterableMsg (S (r"int")))
  | .bool _ => .error (notIterableMsg (S (r"bool")))
  | .null => .error (notIterableMsg (S (r"NoneType")))

/-! ## `_call_ollama` -/

/-- Outcome of the HTTP round trip to the completion client, abstracting the
`requests.post` call: the `response` field of the decoded body on success,
or the distinguishable failure kinds. -/
inductive Transport where
  | ok : List Char → Transport
  | connErr : Transport
  | timeoutErr : Transport
  | otherErr : List Char → Transport
deriving DecidableEq

def connErrMsg : List Char := S (r"Cannot connect to Ollama. Run: ollama serve")

def timeoutErrMsg : List Char := S (r"Ollama timed out. Try a faster/smaller model.")

def noOutputRec : CleanRec :=
  { type := S (r"notation"), quote := [],
    annot := S (r"Model returned no output."), themes := [] }

def noAnnsRec : CleanRec :=
  { type := S (r"notation"), quote := [],
    annot := S (r"No annotations produced."), themes := [] }

def parseFailedRec (raw : List Char) : CleanRec :=
  { type := S (r"notation"), quote := [],
    annot := S (r"JSON parse failed. Raw: ") ++
      (if raw ≠ [] then raw.take 500 else S (r"(empty)")),
    themes := [] }

/-- `_call_ollama`: returns the cleaned records, or the message of the
`RuntimeError` that escapes to the caller. -/
def call_ollama (t : Transport) : Except (List Char) (List CleanRec) :=
  match t with
  | .connErr => .error connErrMsg
  | .timeoutErr => .error timeoutErrMsg
  | .otherErr m => .error m
  | .ok resp =>
    let raw := pyStrip resp
    if raw = [] then .ok [noOutputRec]
    else
      match repair_json raw with
      | .error _ => .ok [parseFailedRec (raw.take 500)]
      | .ok j =>
        match cleanTop j with
        | .error m => .error m
        | .ok cleaned => .ok (if cleaned = [] then [noAnnsRec] else cleaned)

/-! ## The generation stream (`annotate` route's `generate`) -/

/-- The prompt template of `_build_prompt` (contents abbreviated to the parts
the claims touch: it is a pure function of its three inputs). -/
def build_prompt (page_text : List Char) (instructions : List Char) (page_num : Nat) :
    List Char :=
  S (r"ANNOTATION INSTRUCTIONS: ") ++ instructions ++
  S (r" PAGE ") ++ Nat.toDigits 10 page_num ++ S (r" TEXT: ") ++ page_text

inductive Event where
  | progress : Nat → List Char → Event
  | pageStart : Nat → Event
  | ann : Nat → CleanRec → Event
  | error : List Char → Event
  | done : Event
deriving DecidableEq

def syntheticRec : CleanRec :=
  { type := S (r"notation"), quote := [],
    annot := S (r"No extractable text on this page (may be an image)."),
    themes := [] }

def progressLabel (pg p_end : Nat) : List Char :=
  S (r"Annotating page ") ++ Nat.toDigits 10 pg ++ S (r" of ") ++
  Nat.toDigits 10 p_end ++ S (r"…")

def doneLabel : List Char := S (r"Annotations complete…")

def noPagesMsg : List Char := S (r"No pages found in that range.")

/-- Text truncation before prompting (does not affect the oracle). -/
def truncText (t : List Char) : List Char :=
  if 4000 < t.length then t.take 4000 ++ cNL :: S (r"[truncated]") else t

/-- Per-page loop of `generate`.  Returns the emitted events and, as a ghost
trace, the page numbers for which `_call_ollama` was invoked.  The percentage
`int((i / n) * 92)` is modelled by exact rational arithmetic, i.e.
`(i * 92) / n` in `Nat`. -/
def genLoop (tr : Nat → Transport) (p_start n p_end : Nat) :
    Nat → List (List Char) → List Event × List Nat
  | _, [] => ([.progress 93 doneLabel, .done], [])
  | i, txt :: rest =>
    let pg := p_start + i + 1
    let hd : List Event := [.progress (i * 92 / n) (progressLabel pg p_end), .pageStart pg]
    let text := pyStrip txt
    if text = [] then
      let t := genLoop tr p_start n p_end (i + 1) rest
      (hd ++ .ann pg syntheticRec :: t.1, t.2)
    else
      match call_ollama (tr (p_start + i)) with
      | .error m => (hd ++ [.error m], [pg])
      | .ok anns =>
        let t := genLoop tr p_start n p_end (i + 1) rest
        (hd ++ anns.map (.ann pg) ++ t.1, pg :: t.2)

/-- The page window `pdf.pages[p_start:p_end]`. -/
def pageWindow (texts : List (List Char)) (page_from page_to : Nat) : List (List Char) :=
  (texts.drop (page_from - 1)).take (min page_to texts.length - (page_from - 1))

/-- `generate`: the SSE stream of one annotation job.  `texts` are the
per-page extractor outputs; `tr` is the completion-client oracle indexed by
0-based absolute page index. -/
def generate (texts : List (List Char)) (tr : Nat → Transport)
    (page_from page_to : Nat) : List Event × List Nat :=
  let p_start := page_from - 1
  let p_end := min page_to texts.length
  let pages := pageWindow texts page_from page_to
  if pages.length = 0 then ([.error noPagesMsg], [])
  else genLoop tr p_start pages.length p_end 0 pages

/-! ## `textwrap.wrap` (greedy core) -/

def splitWordsAux : List Char → List Char → List (List Char)
  | [], cur => if cur = [] then [] else [cur.reverse]
  | c :: rest, cur =>
    if isPyWs c then
      if cur = [] then splitWordsAux rest [] else cur.reverse :: splitWordsAux rest []
    else splitWordsAux rest (c :: cur)

/-- Split on whitespace runs (`textwrap` first replaces all whitespace by
spaces and splits into words). -/
def splitWords (s : List Char) : List (List Char) := splitWordsAux s []

/-- Greedy fill with long-word breaking; fuelled (each step either consumes a
word or at least one character of one, so the fuel below never runs out at
the call sites, where the width is at least 14). -/
def wrapGoF : Nat → Nat → List (List Char) → List Char → List (List Char)
  | 0, _, _, cur => if cur = [] then [] else [cur]
  | f + 1, w, words, cur =>
    match words with
    | [] => if cur = [] then [] else [cur]
    | word :: rest =>
      if cur = [] then
        if word.length ≤ w then wrapGoF f w rest word
        else word.take w :: wrapGoF f w (word.drop w :: rest) []
      else
        if cur.length + 1 + word.length ≤ w then wrapGoF f w rest (cur ++ ' ' :: word)
        else cur :: wrapGoF f w (word :: rest) []

def textwrapWrap (s : List Char) (w : Nat) : List (List Char) :=
  wrapGoF (2 * s.length + 2 * (splitWords s).length + 2) w (splitWords s) []

/-! ## The PDF renderer (`_render_pdf` / `build_pdf`)

Geometry is modelled with exact rationals; the external document surface is
modelled by per-page dimensions plus a `searchFor` oracle giving the
bounding boxes of literal text matches.  The trace records, per drawn
annotation, the highlight rectangles and the margin callout box. -/

structure Box where
  x0 : ℚ
  y0 : ℚ
  x1 : ℚ
  y1 : ℚ
deriving DecidableEq

/-- One element of the client-supplied annotation list for the render phase
(`{page, type, quote, annotation, themes}`); `themes` keeps its raw JSON
shape, since the renderer re-checks `isinstance(themes, list)`. -/
structure RawAnn where
  page : Int
  type : List Char
  quote : List Char
  annot : List Char
  themes : Json

structure PageSurface where
  width : ℚ
  height : ℚ
  searchFor : List Char → List Box

def ACCENT : List (List Char × (ℚ × ℚ × ℚ)) :=
  [(S (r"definition"), (0.12, 0.75, 0.68)),
   (S (r"question"), (0.90, 0.65, 0.05)),
   (S (r"reaction"), (0.58, 0.45, 0.92)),
   (S (r"device"), (0.18, 0.55, 0.92)),
   (S (r"theme"), (0.92, 0.45, 0.12)),
   (S (r"notation"), (0.45, 0.50, 0.58)),
   (S (r"summary"), (0.18, 0.75, 0.38))]

def FILL : List (List Char × (ℚ × ℚ × ℚ)) :=
  [(S (r"definition"), (0.88, 1.00, 0.98)),
   (S (r"question"), (1.00, 0.97, 0.82)),
   (S (r"reaction"), (0.96, 0.92, 1.00)),
   (S (r"device"), (0.88, 0.95, 1.00)),
   (S (r"theme"), (1.00, 0.93, 0.86)),
   (S (r"notation"), (0.94, 0.94, 0.96)),
   (S (r"summary"), (0.88, 1.00, 0.93))]

def LABEL : List (List Char × List Char) :=
  [(S (r"definition"), S (r"DEF")),
   (S (r"question"), S (r"Q?")),
   (S (r"reaction"), S (r"RXN")),
   (S (r"device"), S (r"LIT")),
   (S (r"theme"), S (r"THM")),
   (S (r"notation"), S (r"NB")),
   (S (r"summary"), S (r"SUM"))]

def accentOf (t : List Char) : ℚ × ℚ × ℚ := ((ACCENT.lookup t).getD (0.45, 0.50, 0.58))

def fillOf (t : List Char) : ℚ × ℚ × ℚ := ((FILL.lookup t).getD (0.95, 0.95, 0.97))

def labelOf (t : List Char) : List Char := ((LABEL.lookup t).getD (S (r"ANN")))

def BOX_PAD : ℚ := 4.0

def FS_LBL : ℚ := 5.8

def FS_QT : ℚ := 6.4

def FS_TX : ℚ := 6.9

def LH_QT : ℚ := FS_QT * 1.32

def LH_TX : ℚ := FS_TX * 1.36

/-- `box_h` of one callout: padding + label line + wrapped quote lines +
wrapped body lines + optional theme line. -/
def boxHeight (quoteLines annLines : Nat) (hasThemes : Bool) : ℚ :=
  BOX_PAD * 2 + FS_LBL + 2.5 + (quoteLines : ℚ) * LH_QT +
    (if quoteLines ≠ 0 then 2 else 0) + (annLines : ℚ) * LH_TX +
    (if hasThemes then 8 else 0)

structure AnnTrace where
  highlights : List Box
  box : Box
deriving DecidableEq

/-- The `themes` value after the renderer's `isinstance(themes, list)` guard. -/
def annThemes (a : RawAnn) : List Json :=
  match a.themes with | .arr xs => xs | _ => []

/-- Wrapped-quote lines: the quote is shortened to 50 characters plus an
ellipsis, wrapped in quote marks, and text-wrapped; empty quotes produce no
lines. -/
def annQuoteLines (chars : Nat) (a : RawAnn) : List (List Char) :=
  let quote := pyStrip a.quote
  let qShort := if 50 < quote.length then quote.take 50 ++ ['…'] else quote
  if quote ≠ [] then textwrapWrap (cQuote :: qShort ++ [cQuote]) chars else []

/-- `box_h` for one annotation. -/
def annBoxH (chars : Nat) (a : RawAnn) : ℚ :=
  boxHeight (annQuoteLines chars a).length (textwrapWrap (pyStrip a.annot) chars).length
    (!(annThemes a).isEmpty)

/-- Overflow policy: wrap the cursor to the top inset 14 when the box would
cross the bottom inset `ph - 12`. -/
def annY0 (ph y h : ℚ) : ℚ := if ph - 12 < y + h then 14 else y

/-- Best-effort quote highlighting: first 5 hits of a non-trivial quote. -/
def annHighlights (searchFor : List Char → List Box) (a : RawAnn) : List Box :=
  let quote := pyStrip a.quote
  if quote ≠ [] ∧ 5 ≤ quote.length then (searchFor quote).take 5 else []

/-- The per-annotation loop of `_render_pdf` over one page: compute the box
height from the wrapped text, wrap the vertical cursor to the top inset
(14) when the box would cross the bottom inset (`ph - 12`), draw, advance
the cursor past the box plus a 3.5 gap. -/
def renderAnns (searchFor : List Char → List Box) (bx bw : ℚ) (chars : Nat)
    (ph : ℚ) : ℚ → List RawAnn → List AnnTrace
  | _, [] => []
  | y, a :: rest =>
    { highlights := annHighlights searchFor a,
      box := ⟨bx, annY0 ph y (annBoxH chars a), bx + bw,
              annY0 ph y (annBoxH chars a) + annBoxH chars a⟩ } ::
      renderAnns searchFor bx bw chars ph
        (annY0 ph y (annBoxH chars a) + annBoxH chars a + 3.5) rest

structure PageTrace where
  pg : Int
  sepX : ℚ
  annTraces : List AnnTrace

/-- One page of `_render_pdf`: margin strip of width `min(23% · pw, 180)`,
separator, then the callout loop starting at the fixed top inset 14. -/
def renderPage (surface : PageSurface) (pg : Int) (anns : List RawAnn) : PageTrace :=
  let pw := surface.width
  let margin_w := min (pw * 0.23) 180
  let sep_x := pw - margin_w - 2
  let bx := sep_x + 3
  let bw := margin_w - 5
  let chars := max (Int.toNat ⌊bw / (FS_TX * 0.52)⌋) 14
  { pg := pg, sepX := sep_x,
    annTraces := renderAnns surface.searchFor bx bw chars surface.height 14 anns }

/-- `_render_pdf`: render every page group whose 1-based page number is inside
the document; out-of-range groups are silently skipped. -/
def render_pdf (doc : List PageSurface) : List (Int × List RawAnn) → List PageTrace
  | [] => []
  | g :: rest =>
    if h : (0 : Int) ≤ g.fst - 1 ∧ g.fst - 1 < (doc.length : Int) then
      renderPage (doc.get ⟨(g.fst - 1).toNat, by omega⟩) g.fst g.snd ::
        render_pdf doc rest
    else render_pdf doc rest

/-- Python `dict.setdefault`-based grouping: first-seen page order, appends
within a page. -/
def groupInsert (acc : List (Int × List RawAnn)) (pg : Int) (a : RawAnn) :
    List (Int × List RawAnn) :=
  match acc with
  | [] => [(pg, [a])]
  | (p, l) :: rest =>
    if p = pg then (p, l ++ [a]) :: rest else (p, l) :: groupInsert rest pg a

def groupByPage (anns : List RawAnn) : List (Int × List RawAnn) :=
  anns.foldl (fun acc a => groupInsert acc a.page a) []

/-- `build_pdf` route core: the page-range form fields are parsed but never
handed to the renderer, which draws every group present in the annotation
list. -/
def build_pdf (doc : List PageSurface) (raw_anns : List RawAnn)
    (page_from page_to : Int) : List PageTrace :=
  render_pdf doc (groupByPage raw_anns)

/-! ## Helper lemmas -/

theorem mem_pyStrip {c : Char} {s : List Char} (h : c ∈ pyStrip s) : c ∈ s := by
  unfold pyStrip at h
  have h1 : c ∈ (s.dropWhile isPyWs).reverse.dropWhile isPyWs := List.mem_reverse.mp h
  have h2 : c ∈ (s.dropWhile isPyWs).reverse := (List.dropWhile_sublist _).subset h1
  have h3 : c ∈ s.dropWhile isPyWs := List.mem_reverse.mp h2
  exact (List.dropWhile_sublist _).subset h3

theorem not_mem_replaceAll {a b : Char} (hab : b ≠ a) (s : List Char) :
    a ∉ replaceAll a b s := by
  intro h
  unfold replaceAll at h
  obtain ⟨c, _, hc⟩ := List.mem_map.mp h
  by_cases h2 : c = a
  · rw [if_pos h2] at hc; exact hab hc
  · rw [if_neg h2] at hc; exact h2 hc

theorem pyReprCharIn_length_le (q c : Char) : (pyReprCharIn q c).length ≤ 4 := by
  unfold pyReprCharIn
  split_ifs <;> simp

theorem flatten_map_length_le (f : Char → List Char) (hb : ∀ c, (f c).length ≤ 4)
    (s : List Char) : ((s.map f).flatten).length ≤ 4 * s.length := by
  induction s with
  | nil => simp
  | cons c rest ih =>
    simp only [List.map_cons, List.flatten_cons, List.length_append, List.length_cons]
    have := hb c
    omega

theorem pyReprStr_length_le (s : List Char) : (pyReprStr s).length ≤ 2 + 4 * s.length := by
  unfold pyReprStr
  have := flatten_map_length_le (pyReprCharIn (pyReprQuoteCh s))
    (fun c => pyReprCharIn_length_le _ c) s
  simp only [List.length_cons, List.length_append, List.length_singleton, List.length_nil]
  omega

/-! ## C1 -/

/-- C1 (amended): `_repair_json` is total with a single explicit failure
mode — for every input it either returns a parsed value (which may be an
empty array, or a non-sequence scalar, whenever the raw text itself parses
to such a value) or fails with exactly the repair-failure message built from
the first 300 characters of the raw input; the message length is bounded
(here by 32 header characters plus a ≤ 1202-character `repr` of the
snippet).  No other exception escapes its boundary. -/
theorem C1_repair_boundary (raw : List Char) :
    (∃ v, repair_json raw = .ok v) ∨
      (repair_json raw = .error (repairFailMsg raw) ∧
        (repairFailMsg raw).length ≤ 1234) := by
  unfold repair_json
  cases h1 : json_loads raw with
  | some v => exact .inl ⟨v, rfl⟩
  | none =>
    cases h2 : firstParse [repairChunk raw,
                           pyStrip (fenceStrip (repairChunk raw)),
                           nlCollapse (repairChunk raw),
                           truncCandidate (repairChunk raw)] with
    | some v => exact .inl ⟨v, rfl⟩
    | none =>
      cases h3 : strat6 (repairChunk raw) with
      | cons a as => exact .inl ⟨Json.arr (a :: as), rfl⟩
      | nil =>
        refine .inr ⟨rfl, ?_⟩
        unfold repairFailMsg
        have h4 := pyReprStr_length_le (raw.take 300)
        have h5 : (raw.take 300).length ≤ 300 := List.length_take_le 300 raw
        have hS : (S (r"JSON repair failed. Raw output: ")).length = 32 := by decide
        simp only [List.length_append]
        omega

/-- C1 counterexample: the claim as stated asserts the repairer never
returns an empty or non-sequence result, but a raw input of `[]` returns
the empty list and a raw input of `5` returns a bare integer (strategy 1
returns `json.loads` verbatim). -/
theorem C1_counterexample :
    repair_json (S (r"[]")) = .ok (Json.arr []) ∧
      repair_json (S (r"5")) = .ok (Json.num 5) :=
  ⟨rfl, rfl⟩

/-! ## C3 -/

/-- C3: the Annotation Validator `_clean` is total (it is a total function
of its input by construction, mirroring the Python code in which every
operation used is total), returns a sequence no longer than its input, and
every record it returns has a `type` from the closed enumeration, a quote
and body free of raw newline characters, and (by the result type) a list
of strings for `themes`. -/
theorem C3_validator_total (l : List Json) :
    (clean l).length ≤ l.length ∧
      ∀ rec ∈ clean l,
        rec.type ∈ validTypes ∧ cNL ∉ rec.quote ∧ cNL ∉ rec.annot := by
  refine ⟨List.length_filterMap_le _ _, ?_⟩
  intro rec hrec
  obtain ⟨item, _, hit⟩ := List.mem_filterMap.mp hrec
  cases item with
  | obj kvs =>
    simp only [Option.some.injEq] at hit
    subst hit
    refine ⟨?_, ?_, ?_⟩
    · show (if cleanTypeRaw kvs ∈ validTypes then cleanTypeRaw kvs else S (r"notation")) ∈
        validTypes
      split_ifs with h
      · exact h
      · decide
    · intro h
      exact not_mem_replaceAll (by decide) _ (mem_pyStrip h)
    · intro h
      exact not_mem_replaceAll (by decide) _ (mem_pyStrip h)
  | null => simp at hit
  | bool b => simp at hit
  | num n => simp at hit
  | str s => simp at hit
  | arr xs => simp at hit

/-- C3 witness: the validator property at a concrete mixed list (one dict
with odd field shapes, one non-dict entry). -/
theorem C3_witness :
    (clean [Json.obj [(S (r"type"), Json.str (S (r"DEFINITION "))),
                      (S (r"quote"), Json.num 7)],
            Json.num 3]).length ≤ 2 ∧
      ∀ rec ∈ clean [Json.obj [(S (r"type"), Json.str (S (r"DEFINITION "))),
                               (S (r"quote"), Json.num 7)],
                     Json.num 3],
        rec.type ∈ validTypes ∧ cNL ∉ rec.quote ∧ cNL ∉ rec.annot :=
  C3_validator_total [Json.obj [(S (r"type"), Json.str (S (r"DEFINITION "))),
                                (S (r"quote"), Json.num 7)],
                      Json.num 3]

/-! ## C10 -/

theorem renderPage_pg (s : PageSurface) (p : Int) (a : List RawAnn) :
    (renderPage s p a).pg = p := rfl

theorem render_pdf_pages (doc : List PageSurface) (l : List (Int × List RawAnn)) :
    (render_pdf doc l).map PageTrace.pg =
      (l.map Prod.fst).filter
        (fun p => decide ((0 : Int) ≤ p - 1 ∧ p - 1 < (doc.length : Int))) := by
  induction l with
  | nil => rfl
  | cons g rest ih =>
    simp only [render_pdf]
    by_cases hc : (0 : Int) ≤ g.fst - 1 ∧ g.fst - 1 < (doc.length : Int)
    · rw [dif_pos hc]
      simp only [List.map_cons, List.filter_cons, renderPage_pg, decide_eq_true hc,
        if_true, ih]
    · rw [dif_neg hc]
      simp only [List.map_cons, List.filter_cons]
      rw [decide_eq_false hc]
      simp only [Bool.false_eq_true, if_false]
      exact ih

/-- C10: the rendered output is independent of the page-range fields — the
route parses them but never hands them to the renderer, which draws every
page group present in the annotation list, skipping exactly the groups
whose page number lies outside the document. -/
theorem C10_range_independent (doc : List PageSurface) (anns : List RawAnn)
    (pf pt pf' pt' : Int) :
    build_pdf doc anns pf pt = build_pdf doc anns pf' pt' ∧
      (build_pdf doc anns pf pt).map PageTrace.pg =
        ((groupByPage anns).map Prod.fst).filter
          (fun p => decide ((0 : Int) ≤ p - 1 ∧ p - 1 < (doc.length : Int))) :=
  ⟨rfl, render_pdf_pages doc (groupByPage anns)⟩

/-! ## C6 -/

theorem boxHeight_nonneg (a b : Nat) (th : Bool) : 0 ≤ boxHeight a b th := by
  unfold boxHeight BOX_PAD FS_LBL LH_QT LH_TX FS_QT FS_TX
  have h1 : (0 : ℚ) ≤ (a : ℚ) * (6.4 * 1.32) := by positivity
  have h2 : (0 : ℚ) ≤ (b : ℚ) * (6.9 * 1.36) := by positivity
  split_ifs <;> norm_num <;> linarith

theorem annBoxH_nonneg (chars : Nat) (a : RawAnn) : 0 ≤ annBoxH chars a :=
  boxHeight_nonneg _ _ _

theorem renderAnns_boxes (sf : List Char → List Box) (bx bw : ℚ) (chars : Nat)
    (ph : ℚ) (hph : 26 ≤ ph) (l : List RawAnn) :
    ∀ (y : ℚ), ∀ t ∈ renderAnns sf bx bw chars ph y l,
      t.box.y0 ≤ ph - 12 ∧ (t.box.y0 = 14 ∨ t.box.y1 ≤ ph - 12) := by
  induction l with
  | nil =>
    intro y t ht
    simp [renderAnns] at ht
  | cons a rest ih =>
    intro y t ht
    rw [renderAnns] at ht
    rcases List.mem_cons.mp ht with h | h
    · subst h
      dsimp only
      have hnn := annBoxH_nonneg chars a
      unfold annY0
      by_cases hc : ph - 12 < y + annBoxH chars a
      · rw [if_pos hc]
        exact ⟨by linarith, Or.inl rfl⟩
      · rw [if_neg hc]
        push_neg at hc
        exact ⟨by linarith, Or.inr (by linarith)⟩
    · exact ih _ t h

/-- C6: every margin callout box is placed with its top coordinate at or
above the bottom inset `ph - 12` (for any page at least 26 units tall, so
that the top inset itself is above the bottom inset): whenever the box
would cross the bottom inset the cursor is reset to the fixed top inset 14
before the box is drawn, and otherwise the whole box fits above the bottom
inset. -/
theorem C6_overflow_reset (surface : PageSurface) (pg : Int) (anns : List RawAnn)
    (hph : 26 ≤ surface.height) :
    ∀ t ∈ (renderPage surface pg anns).annTraces,
      t.box.y0 ≤ surface.height - 12 ∧
        (t.box.y0 = 14 ∨ t.box.y1 ≤ surface.height - 12) := by
  intro t ht
  exact renderAnns_boxes _ _ _ _ _ hph anns 14 t ht

def demoSurface : PageSurface :=
  { width := 612, height := 792, searchFor := fun _ => [] }

def demoAnn : RawAnn :=
  { page := 1, type := S (r"question"), quote := [], annot := [], themes := Json.null }

def demoTrace : AnnTrace :=
  (renderPage demoSurface 1 [demoAnn]).annTraces.getD 0 ⟨[], ⟨0, 0, 0, 0⟩⟩

theorem renderAnns_length (sf : List Char → List Box) (bx bw : ℚ) (chars : Nat)
    (ph : ℚ) : ∀ (l : List RawAnn) (y : ℚ),
    (renderAnns sf bx bw chars ph y l).length = l.length := by
  intro l
  induction l with
  | nil => intro y; rfl
  | cons a rest ih =>
    intro y
    rw [renderAnns, List.length_cons, List.length_cons, ih]

theorem demoTrace_mem : demoTrace ∈ (renderPage demoSurface 1 [demoAnn]).annTraces := by
  have hlen : (renderPage demoSurface 1 [demoAnn]).annTraces.length = 1 := by
    show (renderAnns _ _ _ _ _ 14 [demoAnn]).length = 1
    rw [renderAnns_length]
    rfl
  have h0 : 0 < (renderPage demoSurface 1 [demoAnn]).annTraces.length := by omega
  unfold demoTrace
  rw [List.getD_eq_getElem _ _ h0]
  exact List.getElem_mem h0

/-- C6 witness: the box invariant at a concrete US-letter-sized page with one
annotation. -/
theorem C6_witness :
    (26 : ℚ) ≤ demoSurface.height ∧
      demoTrace.box.y0 ≤ demoSurface.height - 12 ∧
        (demoTrace.box.y0 = 14 ∨ demoTrace.box.y1 ≤ demoSurface.height - 12) :=
  ⟨by norm_num [demoSurface],
   C6_overflow_reset demoSurface 1 [demoAnn] (by norm_num [demoSurface]) demoTrace
     demoTrace_mem⟩

/-! ## C2 — the ordered fallback chain, stated the way the spec words it -/

/-- Spec step 2: locate the first opening and the last closing square
bracket; when both exist and the first precedes the second, extract that
substring as the candidate, else keep the raw string. -/
def specExtract (raw : List Char) : List Char :=
  match raw.findIdx? (fun c => c = cLS), raw.reverse.findIdx? (fun c => c = cRS) with
  | some i, some i' =>
    if i < raw.length - 1 - i' then (raw.drop i).take (raw.length - 1 - i' + 1 - i)
    else raw
  | _, _ => raw

/-- Spec step 5: cut at the last object-closing brace and append a closing
array bracket, when a closing brace exists. -/
def truncSpec (cand : List Char) : List Char :=
  match cand.reverse.findIdx? (fun c => c = cRB) with
  | some i => cand.take (cand.length - 1 - i + 1) ++ [cRS]
  | none => cand

/-- Spec step 6: collect every brace-delimited fragment that parses (after
newline flattening, as-is or with single quotes normalised); succeed when at
least one fragment parsed. -/
def specStratSix (cand : List Char) : Option Json :=
  if (strat6 cand).isEmpty then none else some (.arr (strat6 cand))

/-- The six strategies in the spec's fixed order. -/
def specStrategies (raw : List Char) : List (Option Json) :=
  [json_loads raw,
   json_loads (specExtract raw),
   json_loads (pyStrip (fenceStrip (specExtract raw))),
   json_loads (nlCollapse (specExtract raw)),
   json_loads (truncSpec (specExtract raw)),
   specStratSix (specExtract raw)]

/-- First strategy that yields a parseable structure wins. -/
def firstSome : List (Option Json) → Option Json
  | [] => none
  | o :: os => match o with | some v => some v | none => firstSome os

/-- The repairer as the spec words it: the first successful strategy of the
ordered chain, else the explicit repair failure. -/
def repairSpecOrdered (raw : List Char) : Except (List Char) Json :=
  match firstSome (specStrategies raw) with
  | some v => .ok v
  | none => .error (repairFailMsg raw)

theorem specExtract_eq (raw : List Char) : specExtract raw = repairChunk raw := by
  unfold specExtract repairChunk pyFind pyRfind pySlice
  cases h1 : raw.findIdx? (fun c => c = cLS) with
  | none => simp
  | some i =>
    cases h2 : raw.reverse.findIdx? (fun c => c = cRS) with
    | none =>
      dsimp only
      have hc : ¬(¬((i : Int) = -1) ∧ (-1 : Int) > (i : Int)) := by omega
      rw [if_neg hc]
    | some i' =>
      dsimp only
      by_cases hlt : i < raw.length - 1 - i'
      · have hc : ¬((i : Int) = -1) ∧
            ((raw.length - 1 - i' : Nat) : Int) > (i : Int) := by
          constructor
          · omega
          · exact_mod_cast hlt
        rw [if_pos hlt, if_pos hc]
        have e1 : ((i : Int)).toNat = i := Int.toNat_ofNat i
        have e2 : (((raw.length - 1 - i' : Nat) : Int) + 1 - (i : Int)).toNat =
            raw.length - 1 - i' + 1 - i := by omega
        rw [e1, e2]
      · have hc : ¬(¬((i : Int) = -1) ∧
            ((raw.length - 1 - i' : Nat) : Int) > (i : Int)) := by
          intro h
          exact hlt (by exact_mod_cast h.2)
        rw [if_neg hlt, if_neg hc]

theorem truncSpec_eq (cand : List Char) : truncSpec cand = truncCandidate cand := by
  unfold truncSpec truncCandidate pyRfind
  cases h : cand.reverse.findIdx? (fun c => c = cRB) with
  | none =>
    have hc : ¬(¬((-1 : Int) = -1)) := by omega
    simp only [if_neg hc]
  | some i =>
    have hc : ¬(((cand.length - 1 - i : Nat) : Int) = -1) := by omega
    rw [if_pos hc]
    have e : (((cand.length - 1 - i : Nat) : Int) + 1).toNat =
        cand.length - 1 - i + 1 := by omega
    rw [e]

/-- C2: `_repair_json` refines the spec's ordered fallback chain — direct
parse, bracket extraction (only when the first opening bracket precedes the
last closing one), fence stripping on the candidate, newline collapsing,
truncation recovery, then per-fragment regex extraction; the first strategy
that yields any parseable structure determines the result. -/
theorem C2_strategy_order (raw : List Char) :
    repair_json raw = repairSpecOrdered raw := by
  unfold repair_json repairSpecOrdered specStrategies
  rw [specExtract_eq, truncSpec_eq]
  simp only [firstParse, firstSome, specStratSix]
  cases h1 : json_loads raw with
  | some v => rfl
  | none =>
    cases h2 : json_loads (repairChunk raw) with
    | some v => rfl
    | none =>
      cases h3 : json_loads (pyStrip (fenceStrip (repairChunk raw))) with
      | some v => rfl
      | none =>
        cases h4 : json_loads (nlCollapse (repairChunk raw)) with
        | some v => rfl
        | none =>
          cases h5 : json_loads (truncCandidate (repairChunk raw)) with
          | some v => rfl
          | none =>
            cases h6 : strat6 (repairChunk raw) with
            | nil => rfl
            | cons a as => rfl

/-! ## Concrete counterexample runs for C5, C8, C9 -/

def isTerminalProgress (e : Event) : Bool :=
  match e with
  | .progress p _ => decide (93 ≤ p)
  | _ => false

/-- C5 counterexample: a fatal connection failure on page 1 of 1 produces a
stream whose only progress event has percentage 0 — no progress event with
the terminal percentage 93 (nor 100) is ever emitted; a zero-page range
emits only the error event, with no progress at all.  The claim that the
stream always contains a terminal-percentage progress event is false. -/
theorem C5_counterexample :
    (generate [S (r"hello")] (fun _ => Transport.connErr) 1 1).1 =
      [.progress 0 (progressLabel 1 1), .pageStart 1, .error connErrMsg] ∧
      ((generate [S (r"hello")] (fun _ => Transport.connErr) 1 1).1.filter
        isTerminalProgress) = [] ∧
      (generate [] (fun _ => Transport.connErr) 1 9999).1 = [.error noPagesMsg] :=
  ⟨rfl, rfl, rfl⟩

/-- The raw text for the C8 counterexample: a serialized array of two
objects, the first complete with string value `\x5d`, truncated inside the
second object's string value. -/
def c8raw : List Char :=
  [cLS, cLB, cQuote, 'a', cQuote, ':', cQuote, cRS, cQuote, cRB, ',',
   cLB, cQuote, 'b', cQuote, ':', cQuote, 'c']

/-- C8 counterexample: on this truncated array the repairer raises its
repair-failure error instead of returning the one complete preceding object
— the closing bracket inside the first object's string value makes the
bracket-extraction step cut the candidate before that object's closing
brace, after which every strategy fails. -/
theorem C8_counterexample :
    repair_json c8raw = .error (repairFailMsg c8raw) := rfl

/-- C9 counterexample: a transport-successful model response of `5` parses
to a bare integer, `_clean` then raises `TypeError`, which `_call_ollama`
re-raises as a job-fatal error: the page gets an error event and zero
annotation events, contradicting the claim that every transport-successful
page yields at least one annotation event. -/
theorem C9_counterexample :
    call_ollama (.ok (S (r"5"))) = .error (notIterableMsg (S (r"int"))) ∧
      (generate [S (r"hi")] (fun _ => Transport.ok (S (r"5"))) 1 1).1 =
        [.progress 0 (progressLabel 1 1), .pageStart 1,
         .error (notIterableMsg (S (r"int")))] :=
  ⟨rfl, rfl⟩

/-! ## Structure of the generation stream -/

/-- Whether `_call_ollama` raises (is job-fatal) for this transport outcome. -/
def callFatalB (t : Transport) : Bool :=
  match call_ollama t with
  | .error _ => true
  | .ok _ => false

/-- Page `i` of the window does not abort the job: empty text, or a
non-fatal call. -/
def pageOkB (tr : Nat → Transport) (p_start i : Nat) (txt : List Char) : Bool :=
  decide (pyStrip txt = []) || !callFatalB (tr (p_start + i))

def pagesOkB (tr : Nat → Transport) (p_start : Nat) : Nat → List (List Char) → Bool
  | _, [] => true
  | i, txt :: rest => pageOkB tr p_start i txt && pagesOkB tr p_start (i + 1) rest

/-- The events one non-aborting page contributes. -/
def pageEvents (tr : Nat → Transport) (p_start n p_end i : Nat) (txt : List Char) :
    List Event :=
  [.progress (i * 92 / n) (progressLabel (p_start + i + 1) p_end),
   .pageStart (p_start + i + 1)] ++
    (if pyStrip txt = [] then [.ann (p_start + i + 1) syntheticRec]
     else
       match call_ollama (tr (p_start + i)) with
       | .ok anns => anns.map (.ann (p_start + i + 1))
       | .error _ => [])

/-- The completion calls one non-aborting page contributes. -/
def pageCalls (p_start i : Nat) (txt : List Char) : List Nat :=
  if pyStrip txt = [] then [] else [p_start + i + 1]

def eventsOfPages (tr : Nat → Transport) (p_start n p_end : Nat) :
    Nat → List (List Char) → List Event
  | _, [] => []
  | i, txt :: rest =>
    pageEvents tr p_start n p_end i txt ++ eventsOfPages tr p_start n p_end (i + 1) rest

def callsOfPages (p_start : Nat) : Nat → List (List Char) → List Nat
  | _, [] => []
  | i, txt :: rest => pageCalls p_start i txt ++ callsOfPages p_start (i + 1) rest

theorem genLoop_cons_ok (tr : Nat → Transport) (p_start n p_end i : Nat)
    (txt : List Char) (rest : List (List Char))
    (hok : pageOkB tr p_start i txt = true) :
    genLoop tr p_start n p_end i (txt :: rest) =
      (pageEvents tr p_start n p_end i txt ++
         (genLoop tr p_start n p_end (i + 1) rest).1,
       pageCalls p_start i txt ++ (genLoop tr p_start n p_end (i + 1) rest).2) := by
  rw [genLoop]
  by_cases ht : pyStrip txt = []
  · simp [ht, pageEvents, pageCalls]
  · have hfat : ∃ anns, call_ollama (tr (p_start + i)) = .ok anns := by
      unfold pageOkB callFatalB at hok
      cases hc : call_ollama (tr (p_start + i)) with
      | error m => rw [hc] at hok; simp [ht] at hok
      | ok anns => exact ⟨anns, rfl⟩
    obtain ⟨anns, ha⟩ := hfat
    simp [ht, ha, pageEvents, pageCalls]

theorem genLoop_cons_fatal (tr : Nat → Transport) (p_start n p_end i : Nat)
    (txt : List Char) (rest : List (List Char)) (m : List Char)
    (ht : pyStrip txt ≠ [])
    (hf : call_ollama (tr (p_start + i)) = .error m) :
    genLoop tr p_start n p_end i (txt :: rest) =
      ([.progress (i * 92 / n) (progressLabel (p_start + i + 1) p_end),
        .pageStart (p_start + i + 1), .error m],
       [p_start + i + 1]) := by
  rw [genLoop]
  simp [ht, hf]

theorem genLoop_split (tr : Nat → Transport) (p_start n p_end : Nat) :
    ∀ (l₁ l₂ : List (List Char)) (i : Nat),
      pagesOkB tr p_start i l₁ = true →
      genLoop tr p_start n p_end i (l₁ ++ l₂) =
        (eventsOfPages tr p_start n p_end i l₁ ++
           (genLoop tr p_start n p_end (i + l₁.length) l₂).1,
         callsOfPages p_start i l₁ ++
           (genLoop tr p_start n p_end (i + l₁.length) l₂).2) := by
  intro l₁
  induction l₁ with
  | nil =>
    intro l₂ i _
    simp [eventsOfPages, callsOfPages]
  | cons txt rest ih =>
    intro l₂ i h
    rw [pagesOkB, Bool.and_eq_true] at h
    rw [List.cons_append, genLoop_cons_ok tr p_start n p_end i txt (rest ++ l₂) h.1,
      ih l₂ (i + 1) h.2]
    have hlen : i + 1 + rest.length = i + (txt :: rest).length := by
      simp [List.length_cons]; omega
    rw [hlen]
    simp [eventsOfPages, callsOfPages, List.append_assoc]

theorem pageEvents_shape (tr : Nat → Transport) (p_start n p_end i : Nat)
    (txt : List Char) :
    ∀ e ∈ pageEvents tr p_start n p_end i txt,
      e = .progress (i * 92 / n) (progressLabel (p_start + i + 1) p_end) ∨
        e = .pageStart (p_start + i + 1) ∨ ∃ d, e = .ann (p_start + i + 1) d := by
  intro e he
  unfold pageEvents at he
  simp only [List.mem_append, List.mem_cons, List.not_mem_nil, or_false] at he
  rcases he with (h | h) | h
  · exact .inl h
  · exact .inr (.inl h)
  · refine .inr (.inr ?_)
    by_cases ht : pyStrip txt = []
    · rw [if_pos ht] at h
      simp only [List.mem_singleton] at h
      exact ⟨syntheticRec, h⟩
    · rw [if_neg ht] at h
      cases hc : call_ollama (tr (p_start + i)) with
      | ok anns =>
        rw [hc] at h
        obtain ⟨d, _, hd⟩ := List.mem_map.mp h
        exact ⟨d, hd.symm⟩
      | error m =>
        rw [hc] at h
        simp at h

theorem eventsOfPages_shape (tr : Nat → Transport) (p_start n p_end : Nat) :
    ∀ (l : List (List Char)) (i : Nat), ∀ e ∈ eventsOfPages tr p_start n p_end i l,
      ∃ j, i ≤ j ∧ j < i + l.length ∧
        (e = .progress (j * 92 / n) (progressLabel (p_start + j + 1) p_end) ∨
          e = .pageStart (p_start + j + 1) ∨ ∃ d, e = .ann (p_start + j + 1) d) := by
  intro l
  induction l with
  | nil => intro i e he; simp [eventsOfPages] at he
  | cons txt rest ih =>
    intro i e he
    rw [eventsOfPages] at he
    rcases List.mem_append.mp he with h | h
    · refine ⟨i, Nat.le_refl i, ?_, pageEvents_shape _ _ _ _ _ _ e h⟩
      simp only [List.length_cons]
      omega
    · obtain ⟨j, hj1, hj2, hj3⟩ := ih (i + 1) e h
      refine ⟨j, by omega, ?_, hj3⟩
      simp only [List.length_cons]
      omega

theorem eventsOfPages_clean (tr : Nat → Transport) (p_start n p_end : Nat)
    (l : List (List Char)) (i : Nat) :
    ∀ e ∈ eventsOfPages tr p_start n p_end i l,
      (∀ m, e ≠ .error m) ∧ e ≠ .done := by
  intro e he
  obtain ⟨j, _, _, hsh⟩ := eventsOfPages_shape tr p_start n p_end l i e he
  rcases hsh with h | h | ⟨d, h⟩ <;> subst h <;>
    refine ⟨fun m hm => ?_, fun hm => ?_⟩ <;> cases hm

theorem callsOfPages_mem (p_start : Nat) :
    ∀ (l : List (List Char)) (i : Nat) (c : Nat), c ∈ callsOfPages p_start i l →
      ∃ j, i ≤ j ∧ j < i + l.length ∧ c = p_start + j + 1 := by
  intro l
  induction l with
  | nil => intro i c hc; simp [callsOfPages] at hc
  | cons txt rest ih =>
    intro i c hc
    rw [callsOfPages] at hc
    rcases List.mem_append.mp hc with h | h
    · unfold pageCalls at h
      split_ifs at h
      · simp at h
      · simp only [List.mem_singleton] at h
        exact ⟨i, Nat.le_refl i, by simp [List.length_cons], h⟩
    · obtain ⟨j, hj1, hj2, hj3⟩ := ih (i + 1) c h
      exact ⟨j, by omega, by simp only [List.length_cons]; omega, hj3⟩

theorem genLoop_ann_page_lb (tr : Nat → Transport) (p_start n p_end : Nat) :
    ∀ (l : List (List Char)) (i : Nat) (p : Nat) (d : CleanRec),
      Event.ann p d ∈ (genLoop tr p_start n p_end i l).1 → p_start + i + 1 ≤ p := by
  intro l
  induction l with
  | nil =>
    intro i p d h
    simp [genLoop] at h
  | cons txt rest ih =>
    intro i p d h
    rw [genLoop] at h
    by_cases ht : pyStrip txt = []
    · simp only [ht, if_pos rfl, if_true] at h
      simp only [List.cons_append, List.nil_append, List.mem_cons] at h
      rcases h with h | h | h | h
      · cases h
      · cases h
      · cases h; omega
      · have := ih (i + 1) p d h
        omega
    · simp only [ht, if_neg ht, if_false] at h
      cases hc : call_ollama (tr (p_start + i)) with
      | error m =>
        rw [hc] at h
        simp only [List.cons_append, List.nil_append, List.mem_cons,
          List.not_mem_nil, or_false] at h
        rcases h with h | h | h <;> cases h
      | ok anns =>
        rw [hc] at h
        simp only [List.cons_append, List.nil_append, List.mem_cons,
          List.mem_append] at h
        rcases h with h | h | h
        · cases h
        · cases h
        rcases h with h | h
        · obtain ⟨d', _, hd⟩ := List.mem_map.mp h
          cases hd; omega
        · have := ih (i + 1) p d h
          omega

theorem genLoop_calls_lb (tr : Nat → Transport) (p_start n p_end : Nat) :
    ∀ (l : List (List Char)) (i : Nat) (c : Nat),
      c ∈ (genLoop tr p_start n p_end i l).2 → p_start + i + 1 ≤ c := by
  intro l
  induction l with
  | nil =>
    intro i c h
    simp [genLoop] at h
  | cons txt rest ih =>
    intro i c h
    rw [genLoop] at h
    by_cases ht : pyStrip txt = []
    · simp only [ht, if_pos rfl, if_true] at h
      have := ih (i + 1) c h
      omega
    · simp only [if_neg ht] at h
      cases hc : call_ollama (tr (p_start + i)) with
      | error m =>
        rw [hc] at h
        simp only [List.mem_singleton] at h
        omega
      | ok anns =>
        rw [hc] at h
        simp only [List.mem_cons] at h
        rcases h with h | h
        · omega
        · have := ih (i + 1) c h
          omega

/-! ## C4 -/

/-- C4: when the completion client fails with a connection failure or a
timeout on a page (all earlier pages of the window having completed without
aborting), the stream is exactly the earlier pages' events, this page's
progress and `page_start`, and a single final error event — nothing after
it, no events for later pages, and exactly one completion call for the
failing page (no retry); the earlier events contain no error and no
completion marker. -/
theorem C4_fatal_halt (texts : List (List Char)) (tr : Nat → Transport)
    (page_from page_to k : Nat)
    (hk : k < (pageWindow texts page_from page_to).length)
    (hok : pagesOkB tr (page_from - 1) 0
      ((pageWindow texts page_from page_to).take k) = true)
    (htxt : pyStrip ((pageWindow texts page_from page_to).getD k []) ≠ [])
    (hfail : tr (page_from - 1 + k) = .connErr ∨ tr (page_from - 1 + k) = .timeoutErr) :
    generate texts tr page_from page_to =
      (eventsOfPages tr (page_from - 1) (pageWindow texts page_from page_to).length
          (min page_to texts.length) 0 ((pageWindow texts page_from page_to).take k) ++
        [.progress (k * 92 / (pageWindow texts page_from page_to).length)
            (progressLabel (page_from - 1 + k + 1) (min page_to texts.length)),
         .pageStart (page_from - 1 + k + 1),
         .error (if tr (page_from - 1 + k) = .connErr then connErrMsg else timeoutErrMsg)],
       callsOfPages (page_from - 1) 0 ((pageWindow texts page_from page_to).take k) ++
         [page_from - 1 + k + 1]) ∧
      ∀ e ∈ eventsOfPages tr (page_from - 1) (pageWindow texts page_from page_to).length
          (min page_to texts.length) 0 ((pageWindow texts page_from page_to).take k),
        (∀ m, e ≠ Event.error m) ∧ e ≠ Event.done := by
  have hmsg : call_ollama (tr (page_from - 1 + k)) =
      .error (if tr (page_from - 1 + k) = .connErr then connErrMsg else timeoutErrMsg) := by
    rcases hfail with h | h <;> rw [h] <;> simp [call_ollama]
  constructor
  · unfold generate
    have hne : ¬((pageWindow texts page_from page_to).length = 0) := by omega
    simp only [hne, if_neg hne, if_false]
    have hsplit := genLoop_split tr (page_from - 1)
      (pageWindow texts page_from page_to).length (min page_to texts.length)
      ((pageWindow texts page_from page_to).take k)
      ((pageWindow texts page_from page_to).drop k) 0 hok
    rw [List.take_append_drop] at hsplit
    rw [hsplit]
    have hlen : (0 : Nat) + ((pageWindow texts page_from page_to).take k).length = k := by
      simp [List.length_take]; omega
    rw [hlen]
    have hdrop : (pageWindow texts page_from page_to).drop k =
        ((pageWindow texts page_from page_to).getD k []) ::
          (pageWindow texts page_from page_to).drop (k + 1) := by
      rw [List.getD_eq_getElem _ _ hk]
      exact List.drop_eq_getElem_cons hk
    rw [hdrop, genLoop_cons_fatal _ _ _ _ _ _ _ _ htxt hmsg]
  · exact eventsOfPages_clean tr (page_from - 1) _ _ _ 0

/-! ## C7 -/

/-- C7: a page of the window whose extracted text is whitespace-only (all
earlier pages non-aborting) contributes exactly its progress, `page_start`
and one synthetic notation record, the stream then continues with the rest
of the pages; no completion call is made for that page, and no other
annotation event of the run carries that page number. -/
theorem C7_whitespace_page (texts : List (List Char)) (tr : Nat → Transport)
    (page_from page_to k : Nat)
    (hk : k < (pageWindow texts page_from page_to).length)
    (hok : pagesOkB tr (page_from - 1) 0
      ((pageWindow texts page_from page_to).take k) = true)
    (htxt : pyStrip ((pageWindow texts page_from page_to).getD k []) = []) :
    generate texts tr page_from page_to =
      (eventsOfPages tr (page_from - 1) (pageWindow texts page_from page_to).length
          (min page_to texts.length) 0 ((pageWindow texts page_from page_to).take k) ++
        [.progress (k * 92 / (pageWindow texts page_from page_to).length)
            (progressLabel (page_from - 1 + k + 1) (min page_to texts.length)),
         .pageStart (page_from - 1 + k + 1),
         .ann (page_from - 1 + k + 1) syntheticRec] ++
        (genLoop tr (page_from - 1) (pageWindow texts page_from page_to).length
          (min page_to texts.length) (k + 1)
          ((pageWindow texts page_from page_to).drop (k + 1))).1,
       callsOfPages (page_from - 1) 0 ((pageWindow texts page_from page_to).take k) ++
        (genLoop tr (page_from - 1) (pageWindow texts page_from page_to).length
          (min page_to texts.length) (k + 1)
          ((pageWindow texts page_from page_to).drop (k + 1))).2) ∧
      (∀ p d, Event.ann p d ∈ eventsOfPages tr (page_from - 1)
          (pageWindow texts page_from page_to).length (min page_to texts.length) 0
          ((pageWindow texts page_from page_to).take k) → p ≠ page_from - 1 + k + 1) ∧
      (∀ p d, Event.ann p d ∈ (genLoop tr (page_from - 1)
          (pageWindow texts page_from page_to).length (min page_to texts.length) (k + 1)
          ((pageWindow texts page_from page_to).drop (k + 1))).1 →
        p ≠ page_from - 1 + k + 1) ∧
      ∀ c ∈ (generate texts tr page_from page_to).2, c ≠ page_from - 1 + k + 1 := by
  have hmain : generate texts tr page_from page_to =
      (eventsOfPages tr (page_from - 1) (pageWindow texts page_from page_to).length
          (min page_to texts.length) 0 ((pageWindow texts page_from page_to).take k) ++
        [.progress (k * 92 / (pageWindow texts page_from page_to).length)
            (progressLabel (page_from - 1 + k + 1) (min page_to texts.length)),
         .pageStart (page_from - 1 + k + 1),
         .ann (page_from - 1 + k + 1) syntheticRec] ++
        (genLoop tr (page_from - 1) (pageWindow texts page_from page_to).length
          (min page_to texts.length) (k + 1)
          ((pageWindow texts page_from page_to).drop (k + 1))).1,
       callsOfPages (page_from - 1) 0 ((pageWindow texts page_from page_to).take k) ++
        (genLoop tr (page_from - 1) (pageWindow texts page_from page_to).length
          (min page_to texts.length) (k + 1)
          ((pageWindow texts page_from page_to).drop (k + 1))).2) := by
    unfold generate
    have hne : ¬((pageWindow texts page_from page_to).length = 0) := by omega
    simp only [hne, if_neg hne, if_false]
    have hsplit := genLoop_split tr (page_from - 1)
      (pageWindow texts page_from page_to).length (min page_to texts.length)
      ((pageWindow texts page_from page_to).take k)
      ((pageWindow texts page_from page_to).drop k) 0 hok
    rw [List.take_append_drop] at hsplit
    rw [hsplit]
    have hlen : (0 : Nat) + ((pageWindow texts page_from page_to).take k).length = k := by
      simp [List.length_take]; omega
    rw [hlen]
    have hdrop : (pageWindow texts page_from page_to).drop k =
        ((pageWindow texts page_from page_to).getD k []) ::
          (pageWindow texts page_from page_to).drop (k + 1) := by
      rw [List.getD_eq_getElem _ _ hk]
      exact List.drop_eq_getElem_cons hk
    rw [hdrop]
    have hstep := genLoop_cons_ok tr (page_from - 1)
      (pageWindow texts page_from page_to).length (min page_to texts.length) k
      ((pageWindow texts page_from page_to).getD k [])
      ((pageWindow texts page_from page_to).drop (k + 1))
      (by unfold pageOkB; rw [htxt]; simp)
    rw [hstep]
    unfold pageEvents pageCalls
    rw [if_pos htxt, if_pos htxt]
    simp [List.append_assoc]
  refine ⟨hmain, ?_, ?_, ?_⟩
  · intro p d hmem
    obtain ⟨j, _, hj2, hsh⟩ := eventsOfPages_shape tr (page_from - 1) _ _ _ 0 _ hmem
    rcases hsh with h | h | ⟨d', h⟩
    · cases h
    · cases h
    · cases h
      have : j < k := by
        have := List.length_take_le k (pageWindow texts page_from page_to)
        omega
      omega
  · intro p d hmem
    have := genLoop_ann_page_lb tr (page_from - 1) _ _ _ (k + 1) p d hmem
    omega
  · intro c hc
    rw [hmain] at hc
    rcases List.mem_append.mp hc with h | h
    · obtain ⟨j, _, hj2, hj3⟩ := callsOfPages_mem (page_from - 1) _ 0 c h
      have : j < k := by
        have := List.length_take_le k (pageWindow texts page_from page_to)
        omega
      omega
    · have := genLoop_calls_lb tr (page_from - 1) _ _ _ (k + 1) c h
      omega

/-! ## C5 (amended) -/

/-- C5 (amended): in every run with at least one page in range and no
aborting page, the stream is the per-page events followed by a progress
event at the terminal percentage 93 and the completion marker; the
terminal progress event is therefore always present in non-fatal runs
(fatal runs instead end with a single error event, see the
counterexample). -/
theorem C5_terminal_progress (texts : List (List Char)) (tr : Nat → Transport)
    (page_from page_to : Nat)
    (hn : (pageWindow texts page_from page_to).length ≠ 0)
    (hok : pagesOkB tr (page_from - 1) 0 (pageWindow texts page_from page_to) = true) :
    (generate texts tr page_from page_to).1 =
      eventsOfPages tr (page_from - 1) (pageWindow texts page_from page_to).length
          (min page_to texts.length) 0 (pageWindow texts page_from page_to) ++
        [.progress 93 doneLabel, .done] := by
  unfold generate
  simp only [hn, if_neg hn, if_false]
  have hsplit := genLoop_split tr (page_from - 1)
    (pageWindow texts page_from page_to).length (min page_to texts.length)
    (pageWindow texts page_from page_to) [] 0 hok
  rw [List.append_nil] at hsplit
  rw [hsplit]
  rfl

/-! ## C9 (amended) -/

theorem call_ollama_ok_ne_nil (resp : List Char) (anns : List CleanRec)
    (h : call_ollama (.ok resp) = .ok anns) : anns ≠ [] := by
  simp only [call_ollama] at h
  by_cases hps : pyStrip resp = []
  · rw [if_pos hps] at h
    injection h with h'
    subst h'
    simp
  · rw [if_neg hps] at h
    cases hr : repair_json (pyStrip resp) with
    | error m =>
      rw [hr] at h
      dsimp only at h
      injection h with h'
      subst h'
      simp
    | ok j =>
      rw [hr] at h
      dsimp only at h
      cases hc : cleanTop j with
      | error m => rw [hc] at h; cases h
      | ok cleaned =>
        rw [hc] at h
        dsimp only at h
        injection h with h'
        subst h'
        by_cases hcl : cleaned = [] <;> simp [hcl]

/-- C9 (amended): for a page with non-empty text whose completion call
succeeds at the transport level *and* whose repaired output is iterable (so
`_call_ollama` returns instead of raising `TypeError`), the call always
yields at least one record — the empty-response, repair-failure and
all-records-dropped paths each substitute a single fallback notation record
— and the stream therefore contains at least one annotation event for that
page. -/
theorem C9_fallback_records (texts : List (List Char)) (tr : Nat → Transport)
    (page_from page_to k : Nat) (resp : List Char) (anns : List CleanRec)
    (hk : k < (pageWindow texts page_from page_to).length)
    (hok : pagesOkB tr (page_from - 1) 0
      ((pageWindow texts page_from page_to).take k) = true)
    (htxt : pyStrip ((pageWindow texts page_from page_to).getD k []) ≠ [])
    (htr : tr (page_from - 1 + k) = .ok resp)
    (hcall : call_ollama (.ok resp) = .ok anns) :
    anns ≠ [] ∧
      ∃ d, Event.ann (page_from - 1 + k + 1) d ∈ (generate texts tr page_from page_to).1 := by
  have hanns : anns ≠ [] := call_ollama_ok_ne_nil resp anns hcall
  refine ⟨hanns, ?_⟩
  unfold generate
  have hne : ¬((pageWindow texts page_from page_to).length = 0) := by omega
  simp only [hne, if_neg hne, if_false]
  have hsplit := genLoop_split tr (page_from - 1)
    (pageWindow texts page_from page_to).length (min page_to texts.length)
    ((pageWindow texts page_from page_to).take k)
    ((pageWindow texts page_from page_to).drop k) 0 hok
  rw [List.take_append_drop] at hsplit
  rw [hsplit]
  have hlen : (0 : Nat) + ((pageWindow texts page_from page_to).take k).length = k := by
    simp [List.length_take]; omega
  rw [hlen]
  have hdrop : (pageWindow texts page_from page_to).drop k =
      ((pageWindow texts page_from page_to).getD k []) ::
        (pageWindow texts page_from page_to).drop (k + 1) := by
    rw [List.getD_eq_getElem _ _ hk]
    exact List.drop_eq_getElem_cons hk
  rw [hdrop]
  have hco : call_ollama (tr (page_from - 1 + k)) = .ok anns := by
    rw [htr]; exact hcall
  have hstep := genLoop_cons_ok tr (page_from - 1)
    (pageWindow texts page_from page_to).length (min page_to texts.length) k
    ((pageWindow texts page_from page_to).getD k [])
    ((pageWindow texts page_from page_to).drop (k + 1))
    (by unfold pageOkB callFatalB; rw [hco]; simp)
  rw [hstep]
  obtain ⟨d, hd⟩ := List.exists_mem_of_ne_nil anns hanns
  refine ⟨d, ?_⟩
  dsimp only
  refine List.mem_append_right _ ?_
  refine List.mem_append_left _ ?_
  unfold pageEvents
  rw [if_neg htxt, hco]
  refine List.mem_append_right _ ?_
  exact List.mem_map.mpr ⟨d, hd, rfl⟩

/-! ## Witness runs for the pipeline theorems -/

def texts4 : List (List Char) := [S (r"page one text"), S (r"page two text")]

def tr4 : Nat → Transport :=
  fun i => if i = 0 then Transport.ok (S (r"[]")) else Transport.connErr

/-- C4 witness: connection failure on page 2 of 2, page 1 succeeding. -/
theorem C4_witness :
    (1 < (pageWindow texts4 1 2).length) ∧
      pagesOkB tr4 0 0 ((pageWindow texts4 1 2).take 1) = true ∧
      pyStrip ((pageWindow texts4 1 2).getD 1 []) ≠ [] ∧
      generate texts4 tr4 1 2 =
        (eventsOfPages tr4 0 (pageWindow texts4 1 2).length (min 2 texts4.length) 0
            ((pageWindow texts4 1 2).take 1) ++
          [.progress (1 * 92 / (pageWindow texts4 1 2).length)
              (progressLabel 2 (min 2 texts4.length)),
           .pageStart 2, .error (if tr4 1 = .connErr then connErrMsg else timeoutErrMsg)],
         callsOfPages 0 0 ((pageWindow texts4 1 2).take 1) ++ [2]) :=
  ⟨by decide, by decide, by decide,
   (C4_fatal_halt texts4 tr4 1 2 1 (by decide) (by decide) (by decide) (Or.inl rfl)).1⟩

def texts5 : List (List Char) := [S (r"hello page")]

def tr5 : Nat → Transport := fun _ => Transport.ok (S (r"[]"))

/-- C5 witness: a clean one-page run ends with the terminal progress event
and the completion marker. -/
theorem C5_witness :
    ((pageWindow texts5 1 1).length ≠ 0) ∧
      pagesOkB tr5 0 0 (pageWindow texts5 1 1) = true ∧
      (generate texts5 tr5 1 1).1 =
        eventsOfPages tr5 0 (pageWindow texts5 1 1).length (min 1 texts5.length) 0
            (pageWindow texts5 1 1) ++ [.progress 93 doneLabel, .done] :=
  ⟨by decide, by decide, C5_terminal_progress texts5 tr5 1 1 (by decide) (by decide)⟩

def texts7 : List (List Char) := [S (r"   ")]

def tr7 : Nat → Transport := fun _ => Transport.ok (S (r"[]"))

/-- C7 witness: a whitespace-only page yields the synthetic record and the
run continues. -/
theorem C7_witness :
    (0 < (pageWindow texts7 1 1).length) ∧
      pyStrip ((pageWindow texts7 1 1).getD 0 []) = [] ∧
      generate texts7 tr7 1 1 =
        (eventsOfPages tr7 0 (pageWindow texts7 1 1).length (min 1 texts7.length) 0
            ((pageWindow texts7 1 1).take 0) ++
          [.progress (0 * 92 / (pageWindow texts7 1 1).length)
              (progressLabel 1 (min 1 texts7.length)),
           .pageStart 1, .ann 1 syntheticRec] ++
          (genLoop tr7 0 (pageWindow texts7 1 1).length (min 1 texts7.length) 1
            ((pageWindow texts7 1 1).drop 1)).1,
         callsOfPages 0 0 ((pageWindow texts7 1 1).take 0) ++
          (genLoop tr7 0 (pageWindow texts7 1 1).length (min 1 texts7.length) 1
            ((pageWindow texts7 1 1).drop 1)).2) :=
  ⟨by decide, by decide,
   (C7_whitespace_page texts7 tr7 1 1 0 (by decide) (by decide) (by decide)).1⟩

def texts9 : List (List Char) := [S (r"some page text")]

def tr9 : Nat → Transport := fun _ => Transport.ok (S (r"[]"))

/-- C9 witness: an all-records-dropped response (`[]`) still yields one
fallback record and one annotation event. -/
theorem C9_witness :
    (0 < (pageWindow texts9 1 1).length) ∧
      pyStrip ((pageWindow texts9 1 1).getD 0 []) ≠ [] ∧
      call_ollama (.ok (S (r"[]"))) = .ok [noAnnsRec] ∧
      ([noAnnsRec] ≠ ([] : List CleanRec) ∧
        ∃ d, Event.ann 1 d ∈ (generate texts9 tr9 1 1).1) :=
  ⟨by decide, by decide, rfl,
   C9_fallback_records texts9 tr9 1 1 0 (S (r"[]")) [noAnnsRec]
     (by decide) (by decide) (by decide) rfl rfl⟩

/-! ## C8 (amended): truncation recovery on a serialized array family

The family: a JSON array of flat string-valued objects whose keys and
values avoid braces, brackets, quotes, backslashes, backticks and control
characters, truncated strictly inside a trailing object. -/

/-- Characters allowed inside the family's keys and values. -/
def goodChar (c : Char) : Bool :=
  !(c = cQuote) && !(c = cBackslash) && !(c = cLB) && !(c = cRB) &&
    !(c = cLS) && !(c = cRS) && !(c = cTick) && decide (32 ≤ c.toNat)

def goodStr (s : List Char) : Bool := s.all goodChar

def goodObj (o : List (List Char × List Char)) : Bool :=
  o.all (fun kv => goodStr kv.1 && goodStr kv.2)

def serStr (s : List Char) : List Char := cQuote :: s ++ [cQuote]

def serPair (kv : List Char × List Char) : List Char :=
  serStr kv.1 ++ ':' :: serStr kv.2

/-- Comma-separated concatenation. -/
def sepByComma : List (List Char) → List Char
  | [] => []
  | [x] => x
  | x :: rest => x ++ ',' :: sepByComma rest

def serObjBody (o : List (List Char × List Char)) : List Char :=
  sepByComma (o.map serPair)

def serObj (o : List (List Char × List Char)) : List Char :=
  cLB :: serObjBody o ++ [cRB]

def serArrInner (objs : List (List (List Char × List Char))) : List Char :=
  sepByComma (objs.map serObj)

def serArr (objs : List (List (List Char × List Char))) : List Char :=
  cLS :: serArrInner objs ++ [cRS]

/-- The truncated model output: the array's serialization cut `m` characters
into a trailing object. -/
def truncRaw (objs : List (List (List Char × List Char)))
    (o' : List (List Char × List Char)) (m : Nat) : List Char :=
  cLS :: serArrInner objs ++ ',' :: (serObj o').take m

/-- Python-dict accumulation of an object's fields, as `json.loads` builds
it. -/
def objDictFrom (acc : List (List Char × Json)) (ps : List (List Char × List Char)) :
    List (List Char × Json) :=
  ps.foldl (fun a kv => dictInsert a kv.1 (Json.str kv.2)) acc

def objJson (o : List (List Char × List Char)) : Json :=
  Json.obj (objDictFrom [] o)

/-! ### Character-set facts -/

theorem mem_sepByComma {x : Char} : ∀ {L : List (List Char)},
    x ∈ sepByComma L → x = ',' ∨ ∃ y ∈ L, x ∈ y := by
  intro L
  induction L with
  | nil => intro h; simp [sepByComma] at h
  | cons a rest ih =>
    intro h
    cases hr : rest with
    | nil =>
      subst hr
      exact .inr ⟨a, List.mem_cons_self a _, h⟩
    | cons b rest2 =>
      subst hr
      rw [show sepByComma (a :: b :: rest2) = a ++ ',' :: sepByComma (b :: rest2) from rfl]
        at h
      rcases List.mem_append.mp h with h | h
      · exact .inr ⟨a, List.mem_cons_self a _, h⟩
      · rcases List.mem_cons.mp h with h | h
        · exact .inl h
        · rcases ih h with h | ⟨y, hy, hxy⟩
          · exact .inl h
          · exact .inr ⟨y, List.mem_cons_of_mem a hy, hxy⟩

theorem mem_serStr {x : Char} {s : List Char} (h : x ∈ serStr s) :
    x = cQuote ∨ x ∈ s := by
  unfold serStr at h
  rcases List.mem_cons.mp h with h | h
  · exact .inl h
  · rcases List.mem_append.mp h with h | h
    · exact .inr h
    · simp only [List.mem_singleton] at h
      exact .inl h

theorem mem_serPair {x : Char} {kv : List Char × List Char} (h : x ∈ serPair kv) :
    x = cQuote ∨ x = ':' ∨ x ∈ kv.1 ∨ x ∈ kv.2 := by
  unfold serPair at h
  rcases List.mem_append.mp h with h | h
  · rcases mem_serStr h with h | h
    · exact .inl h
    · exact .inr (.inr (.inl h))
  · rcases List.mem_cons.mp h with h | h
    · exact .inr (.inl h)
    · rcases mem_serStr h with h | h
      · exact .inl h
      · exact .inr (.inr (.inr h))

theorem mem_serObjBody {x : Char} {o : List (List Char × List Char)}
    (hgood : goodObj o = true) (h : x ∈ serObjBody o) :
    x = cQuote ∨ x = ':' ∨ x = ',' ∨ goodChar x = true := by
  unfold serObjBody at h
  rcases mem_sepByComma h with h | ⟨y, hy, hxy⟩
  · exact .inr (.inr (.inl h))
  · obtain ⟨kv, hkv, hser⟩ := List.mem_map.mp hy
    subst hser
    rcases mem_serPair hxy with h | h | h | h
    · exact .inl h
    · exact .inr (.inl h)
    · have := (List.all_eq_true.mp hgood) kv hkv
      rw [Bool.and_eq_true] at this
      exact .inr (.inr (.inr ((List.all_eq_true.mp this.1) x h)))
    · have := (List.all_eq_true.mp hgood) kv hkv
      rw [Bool.and_eq_true] at this
      exact .inr (.inr (.inr ((List.all_eq_true.mp this.2) x h)))

theorem mem_serObj {x : Char} {o : List (List Char × List Char)}
    (hgood : goodObj o = true) (h : x ∈ serObj o) :
    x = cLB ∨ x = cRB ∨ x = cQuote ∨ x = ':' ∨ x = ',' ∨ goodChar x = true := by
  unfold serObj at h
  rcases List.mem_cons.mp h with h | h
  · exact .inl h
  · rcases List.mem_append.mp h with h | h
    · rcases mem_serObjBody hgood h with h | h | h | h
      · exact .inr (.inr (.inl h))
      · exact .inr (.inr (.inr (.inl h)))
      · exact .inr (.inr (.inr (.inr (.inl h))))
      · exact .inr (.inr (.inr (.inr (.inr h))))
    · simp only [List.mem_singleton] at h
      exact .inr (.inl h)

theorem mem_serArrInner {x : Char} {objs : List (List (List Char × List Char))}
    (hgood : objs.all goodObj = true) (h : x ∈ serArrInner objs) :
    x = cLB ∨ x = cRB ∨ x = cQuote ∨ x = ':' ∨ x = ',' ∨ goodChar x = true := by
  unfold serArrInner at h
  rcases mem_sepByComma h with h | ⟨y, hy, hxy⟩
  · exact .inr (.inr (.inr (.inr (.inl h))))
  · obtain ⟨o, ho, hser⟩ := List.mem_map.mp hy
    subst hser
    exact mem_serObj ((List.all_eq_true.mp hgood) o ho) hxy

theorem mem_truncRaw {x : Char} {objs : List (List (List Char × List Char))}
    {o' : List (List Char × List Char)} {m : Nat}
    (hgood : objs.all goodObj = true) (hgood' : goodObj o' = true)
    (h : x ∈ truncRaw objs o' m) :
    x = cLS ∨ x = cLB ∨ x = cRB ∨ x = cQuote ∨ x = ':' ∨ x = ',' ∨
      goodChar x = true := by
  unfold truncRaw at h
  rcases List.mem_cons.mp h with h | h
  · exact .inl h
  · rcases List.mem_append.mp h with h | h
    · rcases mem_serArrInner hgood h with h | h | h | h | h
      · exact .inr (.inl h)
      · exact .inr (.inr (.inl h))
      · exact .inr (.inr (.inr (.inl h)))
      · exact .inr (.inr (.inr (.inr (.inl h))))
      · exact .inr (.inr (.inr (.inr (.inr h))))
    · rcases List.mem_cons.mp h with h | h
      · exact .inr (.inr (.inr (.inr (.inr (.inl h)))))
      · have hmem : x ∈ serObj o' := List.mem_of_mem_take h
        rcases mem_serObj hgood' hmem with h | h | h | h | h
        · exact .inr (.inl h)
        · exact .inr (.inr (.inl h))
        · exact .inr (.inr (.inr (.inl h)))
        · exact .inr (.inr (.inr (.inr (.inl h))))
        · exact .inr (.inr (.inr (.inr (.inr h))))

theorem goodChar_ne (x : Char) (hg : goodChar x = true) :
    x ≠ cQuote ∧ x ≠ cBackslash ∧ x ≠ cLB ∧ x ≠ cRB ∧ x ≠ cLS ∧ x ≠ cRS ∧
      x ≠ cTick ∧ 32 ≤ x.toNat := by
  unfold goodChar at hg
  simp only [Bool.and_eq_true, Bool.not_eq_true', decide_eq_true_eq,
    decide_eq_false_iff_not] at hg
  exact ⟨hg.1.1.1.1.1.1.1, hg.1.1.1.1.1.1.2, hg.1.1.1.1.1.2, hg.1.1.1.1.2,
    hg.1.1.1.2, hg.1.1.2, hg.1.2, hg.2⟩

theorem cRS_not_mem_truncRaw {objs : List (List (List Char × List Char))}
    {o' : List (List Char × List Char)} {m : Nat}
    (hgood : objs.all goodObj = true) (hgood' : goodObj o' = true) :
    cRS ∉ truncRaw objs o' m := by
  intro h
  rcases mem_truncRaw hgood hgood' h with h | h | h | h | h | h | h <;>
    revert h <;> decide

theorem cTick_not_mem_truncRaw {objs : List (List (List Char × List Char))}
    {o' : List (List Char × List Char)} {m : Nat}
    (hgood : objs.all goodObj = true) (hgood' : goodObj o' = true) :
    cTick ∉ truncRaw objs o' m := by
  intro h
  rcases mem_truncRaw hgood hgood' h with h | h | h | h | h | h | h <;>
    revert h <;> decide

theorem cNL_not_mem_truncRaw {objs : List (List (List Char × List Char))}
    {o' : List (List Char × List Char)} {m : Nat}
    (hgood : objs.all goodObj = true) (hgood' : goodObj o' = true) :
    cNL ∉ truncRaw objs o' m := by
  intro h
  rcases mem_truncRaw hgood hgood' h with h | h | h | h | h | h | h <;>
    revert h <;> decide

theorem cRB_not_mem_serObjBody {o : List (List Char × List Char)}
    (hgood : goodObj o = true) : cRB ∉ serObjBody o := by
  intro h
  rcases mem_serObjBody hgood h with h | h | h | h <;> revert h <;> decide

/-! ### The parser consumes input: remainders are suffixes -/

theorem skipWs_suffix (s : List Char) : skipWs s <:+ s :=
  List.dropWhile_suffix _

theorem consStr_some {a : Char} {o : Option (List Char × List Char)}
    {k r : List Char} (h : consStr a o = some (k, r)) :
    ∃ k', o = some (k', r) ∧ k = a :: k' := by
  unfold consStr at h
  cases o with
  | none => cases h
  | some p =>
    cases p with
    | mk k' r' =>
      simp only [Option.map_some', Option.some.injEq, Prod.mk.injEq] at h
      exact ⟨k', by rw [h.2], h.1.symm⟩

theorem suffix_cons3 (a b c : Char) (l : List Char) : l <:+ a :: b :: c :: l :=
  (List.suffix_cons c l).trans
    ((List.suffix_cons b (c :: l)).trans (List.suffix_cons a (b :: c :: l)))

theorem suffix_cons4 (a b c d : Char) (l : List Char) : l <:+ a :: b :: c :: d :: l :=
  (suffix_cons3 b c d l).trans (List.suffix_cons a (b :: c :: d :: l))

theorem parseStringBody_suffix :
    ∀ (n : Nat) (s k r : List Char), s.length ≤ n →
      parseStringBody s = some (k, r) → r <:+ s := by
  intro n
  induction n with
  | zero =>
    intro s k r hle h
    cases s with
    | nil => cases h
    | cons c cr => simp at hle
  | succ n ih =>
    intro s k r hle h
    cases s with
    | nil => cases h
    | cons c cr =>
      rw [parseStringBody.eq_def] at h
      dsimp only at h
      by_cases hq : c = cQuote
      · rw [if_pos hq] at h
        simp only [Option.some.injEq, Prod.mk.injEq] at h
        obtain ⟨-, rfl⟩ := h
        exact List.suffix_cons c cr
      · rw [if_neg hq] at h
        by_cases hb : c = cBackslash
        · rw [if_pos hb] at h
          cases cr with
          | nil => cases h
          | cons e r2 =>
            dsimp only at h
            have hr2 : r2.length ≤ n := by
              simp only [List.length_cons] at hle; omega
            have hstep : ∀ a : Char, consStr a (parseStringBody r2) = some (k, r) →
                r <:+ c :: e :: r2 := by
              intro a ha
              obtain ⟨k', hrec, -⟩ := consStr_some ha
              exact ((ih r2 k' r hr2 hrec).trans (List.suffix_cons e r2)).trans
                (List.suffix_cons c (e :: r2))
            split_ifs at h with e1 e2 e3 e4 e5 e6 e7 e8 e9
            · exact hstep _ h
            · exact hstep _ h
            · exact hstep _ h
            · exact hstep _ h
            · exact hstep _ h
            · exact hstep _ h
            · exact hstep _ h
            · exact hstep _ h
            · -- the \u branch
              cases r2 with
              | nil => cases h
              | cons h1 r3 =>
                cases r3 with
                | nil => cases h
                | cons h2 r4 =>
                  cases r4 with
                  | nil => cases h
                  | cons h3 r5 =>
                    cases r5 with
                    | nil => cases h
                    | cons h4 r6 =>
                      dsimp only at h
                      cases hx1 : hexVal h1 with
                      | none => rw [hx1] at h; cases h
                      | some a =>
                        cases hx2 : hexVal h2 with
                        | none => rw [hx1, hx2] at h; cases h
                        | some b =>
                          cases hx3 : hexVal h3 with
                          | none => rw [hx1, hx2, hx3] at h; cases h
                          | some c2 =>
                            cases hx4 : hexVal h4 with
                            | none => rw [hx1, hx2, hx3, hx4] at h; cases h
                            | some d =>
                              rw [hx1, hx2, hx3, hx4] at h
                              obtain ⟨k', hrec, rfl⟩ := consStr_some h
                              have hr6 : r6.length ≤ n := by
                                simp only [List.length_cons] at hle; omega
                              exact (ih r6 k' r hr6 hrec).trans
                                ((suffix_cons3 h2 h3 h4 r6).trans
                                  (suffix_cons3 c e h1 (h2 :: h3 :: h4 :: r6)))
        · rw [if_neg hb] at h
          by_cases hctl : c.toNat < 32
          · rw [if_pos hctl] at h; cases h
          · rw [if_neg hctl] at h
            obtain ⟨k', hrec, rfl⟩ := consStr_some h
            have hcr : cr.length ≤ n := by
              simp only [List.length_cons] at hle; omega
            exact (ih cr k' r hcr hrec).trans (List.suffix_cons c cr)

theorem parseNumTok_suffix {s : List Char} {n : Int} {r : List Char}
    (h : parseNumTok s = some (n, r)) : r <:+ s := by
  rw [parseNumTok.eq_def] at h
  dsimp only at h
  by_cases h1 : s.takeWhile Char.isDigit = []
  · rw [if_pos h1] at h; cases h
  · rw [if_neg h1] at h
    by_cases h2 : 1 < (s.takeWhile Char.isDigit).length ∧
        (s.takeWhile Char.isDigit).headD '0' = '0'
    · rw [if_pos h2] at h; cases h
    · rw [if_neg h2] at h
      cases hd : s.drop (s.takeWhile Char.isDigit).length with
      | nil =>
        rw [hd] at h
        simp only [Option.some.injEq, Prod.mk.injEq] at h
        obtain ⟨-, rfl⟩ := h
        exact List.nil_suffix
      | cons c tail =>
        rw [hd] at h
        dsimp only at h
        split_ifs at h with h3
        cases h
        rw [← hd]
        exact List.drop_suffix _ _

theorem parse_suffix (f : Nat) :
    (∀ s v r, parseVal f s = some (v, r) → r <:+ s) ∧
      (∀ s kvs r, parseObjItems f s = some (kvs, r) → r <:+ s) ∧
      (∀ s acc kvs r, parseObjMembers f s acc = some (kvs, r) → r <:+ s) ∧
      (∀ s xs r, parseArrItems f s = some (xs, r) → r <:+ s) ∧
      (∀ s acc xs r, parseArrMembers f s acc = some (xs, r) → r <:+ s) := by
  induction f with
  | zero =>
    refine ⟨?_, ?_, ?_, ?_, ?_⟩
    · intro s v r h; simp [parseVal] at h
    · intro s kvs r h; simp [parseObjItems] at h
    · intro s acc kvs r h; simp [parseObjMembers] at h
    · intro s xs r h; simp [parseArrItems] at h
    · intro s acc xs r h; simp [parseArrMembers] at h
  | succ f ih =>
    obtain ⟨ihv, ihoi, ihom, ihai, iham⟩ := ih
    have hval : ∀ s v r, parseVal (f + 1) s = some (v, r) → r <:+ s := by
      intro s v r h
      rw [parseVal] at h
      cases hws : skipWs s with
      | nil => rw [hws] at h; cases h
      | cons c cr =>
        rw [hws] at h
        dsimp only at h
        have hcs : c :: cr <:+ s := hws ▸ skipWs_suffix s
        have hcr : cr <:+ s := (List.suffix_cons c cr).trans hcs
        split_ifs at h with h1 h2 h3 h4 h5 h6 h7 h8
        · cases hp : parseObjItems f cr with
          | none => rw [hp] at h; cases h
          | some p =>
            obtain ⟨kvs2, r2⟩ := p
            rw [hp] at h
            dsimp only at h
            simp only [Option.some.injEq, Prod.mk.injEq] at h
            rw [← h.2]
            exact (ihoi cr kvs2 r2 hp).trans hcr
        · cases hp : parseArrItems f cr with
          | none => rw [hp] at h; cases h
          | some p =>
            obtain ⟨xs2, r2⟩ := p
            rw [hp] at h
            dsimp only at h
            simp only [Option.some.injEq, Prod.mk.injEq] at h
            rw [← h.2]
            exact (ihai cr xs2 r2 hp).trans hcr
        · cases hp : parseStringBody cr with
          | none => rw [hp] at h; cases h
          | some p =>
            obtain ⟨t2, r2⟩ := p
            rw [hp] at h
            dsimp only at h
            simp only [Option.some.injEq, Prod.mk.injEq] at h
            rw [← h.2]
            exact (parseStringBody_suffix cr.length cr t2 r2 (Nat.le_refl _) hp).trans hcr
        · cases hp : parseNumTok cr with
          | none => rw [hp] at h; cases h
          | some p =>
            obtain ⟨n2, r2⟩ := p
            rw [hp] at h
            dsimp only at h
            simp only [Option.some.injEq, Prod.mk.injEq] at h
            rw [← h.2]
            exact (parseNumTok_suffix hp).trans hcr
        · cases hp : parseNumTok (c :: cr) with
          | none => rw [hp] at h; cases h
          | some p =>
            obtain ⟨n2, r2⟩ := p
            rw [hp] at h
            dsimp only at h
            simp only [Option.some.injEq, Prod.mk.injEq] at h
            rw [← h.2]
            exact (parseNumTok_suffix hp).trans hcs
        · unfold expectLit at h
          split_ifs at h with hpre
          · simp only [Option.some.injEq, Prod.mk.injEq] at h
            rw [← h.2]
            exact (List.drop_suffix _ _).trans hcr
        · unfold expectLit at h
          split_ifs at h with hpre
          · simp only [Option.some.injEq, Prod.mk.injEq] at h
            rw [← h.2]
            exact (List.drop_suffix _ _).trans hcr
        · unfold expectLit at h
          split_ifs at h with hpre
          · simp only [Option.some.injEq, Prod.mk.injEq] at h
            rw [← h.2]
            exact (List.drop_suffix _ _).trans hcr
    refine ⟨hval, ?_, ?_, ?_, ?_⟩
    · intro s kvs r h
      rw [parseObjItems] at h
      cases hws : skipWs s with
      | nil => rw [hws] at h; cases h
      | cons c cr =>
        rw [hws] at h
        dsimp only at h
        have hcs : c :: cr <:+ s := hws ▸ skipWs_suffix s
        split_ifs at h with h1
        · simp only [Option.some.injEq, Prod.mk.injEq] at h
          rw [← h.2]
          exact (List.suffix_cons c cr).trans hcs
        · exact (ihom (c :: cr) [] kvs r h).trans hcs
    · intro s acc kvs r h
      rw [parseObjMembers] at h
      cases hws : skipWs s with
      | nil => rw [hws] at h; cases h
      | cons c cr =>
        rw [hws] at h
        dsimp only at h
        have hcs : c :: cr <:+ s := hws ▸ skipWs_suffix s
        have hcr : cr <:+ s := (List.suffix_cons c cr).trans hcs
        split_ifs at h with h1
        · cases hp : parseStringBody cr with
          | none => rw [hp] at h; cases h
          | some p =>
            obtain ⟨k, r1⟩ := p
            rw [hp] at h
            dsimp only at h
            have hr1 : r1 <:+ s :=
              (parseStringBody_suffix cr.length cr k r1 (Nat.le_refl _) hp).trans hcr
            cases hws1 : skipWs r1 with
            | nil => rw [hws1] at h; cases h
            | cons c2 r2 =>
              rw [hws1] at h
              dsimp only at h
              have hr2 : r2 <:+ s :=
                ((List.suffix_cons c2 r2).trans (hws1 ▸ skipWs_suffix r1)).trans hr1
              split_ifs at h with h2
              · cases hp2 : parseVal f r2 with
                | none => rw [hp2] at h; cases h
                | some p2 =>
                  obtain ⟨v, r3⟩ := p2
                  rw [hp2] at h
                  dsimp only at h
                  have hr3 : r3 <:+ s := (ihv r2 v r3 hp2).trans hr2
                  cases hws3 : skipWs r3 with
                  | nil => rw [hws3] at h; cases h
                  | cons c3 r4 =>
                    rw [hws3] at h
                    dsimp only at h
                    have hr4 : r4 <:+ s :=
                      ((List.suffix_cons c3 r4).trans
                        (hws3 ▸ skipWs_suffix r3)).trans hr3
                    split_ifs at h with h3 h4
                    · exact (ihom r4 (dictInsert acc k v) kvs r h).trans hr4
                    · simp only [Option.some.injEq, Prod.mk.injEq] at h
                      rw [← h.2]
                      exact hr4
    · intro s xs r h
      rw [parseArrItems] at h
      cases hws : skipWs s with
      | nil => rw [hws] at h; cases h
      | cons c cr =>
        rw [hws] at h
        dsimp only at h
        have hcs : c :: cr <:+ s := hws ▸ skipWs_suffix s
        split_ifs at h with h1
        · simp only [Option.some.injEq, Prod.mk.injEq] at h
          rw [← h.2]
          exact (List.suffix_cons c cr).trans hcs
        · exact (iham (c :: cr) [] xs r h).trans hcs
    · intro s acc xs r h
      rw [parseArrMembers] at h
      cases hp : parseVal f s with
      | none => rw [hp] at h; cases h
      | some p =>
        obtain ⟨v, r1⟩ := p
        rw [hp] at h
        dsimp only at h
        have hr1 : r1 <:+ s := ihv s v r1 hp
        cases hws : skipWs r1 with
        | nil => rw [hws] at h; cases h
        | cons c r2 =>
          rw [hws] at h
          dsimp only at h
          have hr2 : r2 <:+ s :=
            ((List.suffix_cons c r2).trans (hws ▸ skipWs_suffix r1)).trans hr1
          split_ifs at h with h1 h2
          · exact (iham r2 (acc ++ [v]) xs r h).trans hr2
          · simp only [Option.some.injEq, Prod.mk.injEq] at h
            rw [← h.2]
            exact hr2

/-! ### Failure of `json.loads` on bracket-headed input with no closing bracket -/

theorem parseArrMembers_fail : ∀ (f : Nat) (s : List Char) (acc : List Json),
    cRS ∉ s → parseArrMembers f s acc = none := by
  intro f
  induction f with
  | zero => intro s acc _; rfl
  | succ f ih =>
    intro s acc hns
    rw [parseArrMembers]
    cases hp : parseVal f s with
    | none => rfl
    | some p =>
      obtain ⟨v, r⟩ := p
      dsimp only
      have hr : r <:+ s := (parse_suffix f).1 s v r hp
      cases hws : skipWs r with
      | nil => rfl
      | cons c r2 =>
        dsimp only
        have hc : c :: r2 <:+ s := (hws ▸ skipWs_suffix r).trans hr
        have hcs : ¬ c = cRS := fun he =>
          hns (he ▸ hc.subset (List.mem_cons_self c r2))
        by_cases h1 : c = ','
        · rw [if_pos h1]
          exact ih r2 (acc ++ [v])
            (fun hm => hns (hc.subset (List.mem_cons_of_mem c hm)))
        · rw [if_neg h1, if_neg hcs]

theorem parseArrItems_fail (f : Nat) (s : List Char) (hns : cRS ∉ s) :
    parseArrItems f s = none := by
  cases f with
  | zero => rfl
  | succ f =>
    rw [parseArrItems]
    cases hws : skipWs s with
    | nil => rfl
    | cons c r =>
      dsimp only
      have hc : c :: r <:+ s := hws ▸ skipWs_suffix s
      have hcs : ¬ c = cRS := fun he =>
        hns (he ▸ hc.subset (List.mem_cons_self c r))
      rw [if_neg hcs]
      exact parseArrMembers_fail f (c :: r) [] (fun hm => hns (hc.subset hm))

theorem parseVal_arr_fail (f : Nat) (s t : List Char) (hns : cRS ∉ s)
    (hhead : skipWs s = cLS :: t) : parseVal f s = none := by
  cases f with
  | zero => rfl
  | succ f =>
    rw [parseVal, hhead]
    dsimp only
    have hc : cLS :: t <:+ s := hhead ▸ skipWs_suffix s
    have hnt : cRS ∉ t := fun hm => hns (hc.subset (List.mem_cons_of_mem cLS hm))
    rw [if_neg (by decide : ¬ cLS = cLB), if_pos rfl,
      parseArrItems_fail f t hnt]

theorem json_loads_arr_fail (s t : List Char) (hns : cRS ∉ s)
    (hhead : skipWs s = cLS :: t) : json_loads s = none := by
  unfold json_loads
  rw [parseVal_arr_fail (2 * s.length + 2) s t hns hhead]

/-! ### Cleaning passes are the identity on ASCII-clean text -/

theorem fenceStripF_nil (f : Nat) : fenceStripF f [] = [] := by
  cases f <;> rfl

theorem fenceStripF_id : ∀ (f : Nat) (s : List Char), cTick ∉ s →
    fenceStripF f s = s := by
  intro f
  induction f with
  | zero => intro s _; cases s <;> rfl
  | succ f ih =>
    intro s h
    match s with
    | [] => rfl
    | [c] =>
      show c :: fenceStripF f [] = [c]
      rw [fenceStripF_nil]
    | [c, c2] =>
      show c :: fenceStripF f [c2] = [c, c2]
      rw [ih [c2] (fun hm => h (List.mem_cons_of_mem c hm))]
    | c :: c2 :: c3 :: rest =>
      have hcond : ¬ (c = cTick ∧ c2 = cTick ∧ c3 = cTick) := by
        rintro ⟨rfl, -, -⟩
        exact h (List.mem_cons_self _ _)
      show (if c = cTick ∧ c2 = cTick ∧ c3 = cTick
            then fenceStripF f (dropJsonTag rest)
            else c :: fenceStripF f (c2 :: c3 :: rest)) = c :: c2 :: c3 :: rest
      rw [if_neg hcond,
        ih (c2 :: c3 :: rest) (fun hm => h (List.mem_cons_of_mem c hm))]

theorem fenceStrip_id {s : List Char} (h : cTick ∉ s) : fenceStrip s = s :=
  fenceStripF_id (s.length + 1) s h

theorem nlCollapseAux_id : ∀ (s : List Char) (prev : Option Char), cNL ∉ s →
    nlCollapseAux prev s = s := by
  intro s
  induction s with
  | nil => intro prev _; rfl
  | cons c rest ih =>
    intro prev h
    have hne : ¬ c = cNL := by
      intro he
      subst he
      exact h (List.mem_cons_self _ _)
    rw [nlCollapseAux, if_neg hne,
      ih (some c) (fun hm => h (List.mem_cons_of_mem c hm))]

theorem nlCollapse_id {s : List Char} (h : cNL ∉ s) : nlCollapse s = s :=
  nlCollapseAux_id s none h

theorem pyStrip_subset (s : List Char) : pyStrip s ⊆ s := by
  intro x hx
  unfold pyStrip at hx
  rw [List.mem_reverse] at hx
  have h1 := (List.dropWhile_suffix isPyWs).subset hx
  rw [List.mem_reverse] at h1
  exact (List.dropWhile_suffix isPyWs).subset h1

theorem dropWhile_append_right (p : Char → Bool) (c : Char) (hc : p c = false) :
    ∀ (l : List Char), ∃ w, (l ++ [c]).dropWhile p = w ++ [c] := by
  intro l
  induction l with
  | nil =>
    refine ⟨[], ?_⟩
    simp [List.dropWhile_cons, hc]
  | cons a t ih =>
    by_cases ha : p a = true
    · obtain ⟨w, hw⟩ := ih
      refine ⟨w, ?_⟩
      rw [List.cons_append, List.dropWhile_cons, if_pos ha, hw]
    · refine ⟨a :: t, ?_⟩
      rw [List.cons_append, List.dropWhile_cons, if_neg ha]

theorem pyStrip_cLS_head (rest : List Char) :
    ∃ w, pyStrip (cLS :: rest) = cLS :: w := by
  obtain ⟨w, hw⟩ := dropWhile_append_right isPyWs cLS (by decide) rest.reverse
  refine ⟨w.reverse, ?_⟩
  unfold pyStrip
  rw [List.dropWhile_cons, if_neg (by decide), List.reverse_cons, hw,
    List.reverse_append]
  rfl

/-! ### `findIdx?` helpers for `pyFind` / `pyRfind` -/

theorem findIdx?_none_of_all {p : Char → Bool} :
    ∀ (l : List Char) (i : Nat), (∀ x ∈ l, p x = false) →
      List.findIdx? p l i = none := by
  intro l
  induction l with
  | nil => intro i _; rfl
  | cons a t ih =>
    intro i h
    rw [List.findIdx?_cons, if_neg]
    · exact ih (i + 1) (fun x hx => h x (List.mem_cons_of_mem a hx))
    · rw [h a (List.mem_cons_self a t)]
      exact Bool.false_ne_true

theorem findIdx?_append_none {p : Char → Bool} :
    ∀ (l1 : List Char) (l2 : List Char) (i : Nat), (∀ x ∈ l1, p x = false) →
      List.findIdx? p (l1 ++ l2) i = List.findIdx? p l2 (i + l1.length) := by
  intro l1
  induction l1 with
  | nil => intro l2 i _; rfl
  | cons a t ih =>
    intro l2 i h
    rw [List.cons_append, List.findIdx?_cons, if_neg]
    · rw [ih l2 (i + 1) (fun x hx => h x (List.mem_cons_of_mem a hx))]
      have : i + 1 + t.length = i + (a :: t).length := by
        simp [List.length_cons]; omega
      rw [this]
    · rw [h a (List.mem_cons_self a t)]
      exact Bool.false_ne_true

theorem pyRfind_eq_neg_one {c : Char} {s : List Char} (h : c ∉ s) :
    pyRfind c s = -1 := by
  unfold pyRfind
  have hall : ∀ x ∈ s.reverse, decide (x = c) = false := by
    intro x hx
    have hxc : ¬ x = c := fun he => h (he ▸ List.mem_reverse.mp hx)
    simp [hxc]
  rw [findIdx?_none_of_all s.reverse 0 hall]

/-! ### Locating the bracket/brace cut points on the truncated raw text -/

theorem pyFind_head (c : Char) (t : List Char) : pyFind c (c :: t) = 0 := by
  unfold pyFind
  rw [List.findIdx?_cons, if_pos (by simp)]
  rfl

theorem pyFind_ge_neg_one (c : Char) (s : List Char) : -1 ≤ pyFind c s := by
  unfold pyFind
  cases s.findIdx? (fun x => decide (x = c)) with
  | none => exact le_refl _
  | some i =>
    dsimp only
    omega

theorem repairChunk_eq_self {raw : List Char} (h : cRS ∉ raw) :
    repairChunk raw = raw := by
  unfold repairChunk
  rw [if_neg]
  rintro ⟨-, hgt⟩
  rw [pyRfind_eq_neg_one h] at hgt
  have := pyFind_ge_neg_one cLS raw
  omega

theorem serArrInner_concat : ∀ (objs : List (List (List Char × List Char))),
    objs ≠ [] → ∃ u, serArrInner objs = u ++ [cRB] := by
  intro objs h
  induction objs with
  | nil => cases h rfl
  | cons o rest ih =>
    cases rest with
    | nil =>
      refine ⟨cLB :: serObjBody o, ?_⟩
      show serObj o = (cLB :: serObjBody o) ++ [cRB]
      unfold serObj
      rw [List.cons_append]
    | cons o2 rest2 =>
      obtain ⟨u, hu⟩ := ih (by simp)
      refine ⟨serObj o ++ ',' :: u, ?_⟩
      show serObj o ++ ',' :: serArrInner (o2 :: rest2) =
        (serObj o ++ ',' :: u) ++ [cRB]
      rw [hu, List.append_assoc, List.cons_append]

theorem cRB_not_mem_take_serObj {o : List (List Char × List Char)}
    (hg : goodObj o = true) {m : Nat} (hm : m < (serObj o).length) :
    cRB ∉ (serObj o).take m := by
  intro hmem
  have heq : serObj o = (cLB :: serObjBody o) ++ [cRB] := by
    unfold serObj
    rw [List.cons_append]
  have hslen : (serObj o).length = (serObjBody o).length + 2 := by
    unfold serObj
    simp
  have hlen : m ≤ (cLB :: serObjBody o).length := by
    rw [List.length_cons]
    omega
  rw [heq, List.take_append_of_le_length hlen] at hmem
  rcases List.mem_cons.mp (List.mem_of_mem_take hmem) with h | h
  · exact absurd h (by decide)
  · exact cRB_not_mem_serObjBody hg h

theorem pyRfind_append_last {c : Char} (l1 l2 : List Char) (h : c ∉ l2) :
    pyRfind c (l1 ++ c :: l2) = (l1.length : Int) := by
  unfold pyRfind
  have hrev : (l1 ++ c :: l2).reverse = l2.reverse ++ c :: l1.reverse := by
    rw [List.reverse_append, List.reverse_cons, List.append_assoc,
      List.singleton_append]
  have hall : ∀ x ∈ l2.reverse, decide (x = c) = false := by
    intro x hx
    have hxc : ¬ x = c := fun he => h (he ▸ List.mem_reverse.mp hx)
    simp [hxc]
  rw [hrev, findIdx?_append_none l2.reverse (c :: l1.reverse) 0 hall,
    List.findIdx?_cons, if_pos (by simp)]
  have hlen : (l1 ++ c :: l2).length - 1 - (0 + l2.reverse.length) = l1.length := by
    rw [List.length_append, List.length_cons, List.length_reverse]
    omega
  dsimp only
  rw [hlen]

theorem pyRfind_truncRaw {objs : List (List (List Char × List Char))}
    {o' : List (List Char × List Char)} {m : Nat} (hobjs : objs ≠ [])
    (hgood' : goodObj o' = true) (hm : m < (serObj o').length) :
    pyRfind cRB (truncRaw objs o' m) = ((serArrInner objs).length : Int) := by
  obtain ⟨u, hu⟩ := serArrInner_concat objs hobjs
  have hsplit : truncRaw objs o' m =
      (cLS :: u) ++ cRB :: (',' :: (serObj o').take m) := by
    unfold truncRaw
    rw [hu]
    simp [List.append_assoc]
  have hnot : cRB ∉ ',' :: (serObj o').take m := by
    intro hm2
    rcases List.mem_cons.mp hm2 with h | h
    · exact absurd h (by decide)
    · exact cRB_not_mem_take_serObj hgood' hm h
  rw [hsplit, pyRfind_append_last (cLS :: u) _ hnot, hu]
  simp [List.length_append, List.length_cons]

theorem truncCandidate_truncRaw {objs : List (List (List Char × List Char))}
    {o' : List (List Char × List Char)} {m : Nat} (hobjs : objs ≠ [])
    (hgood' : goodObj o' = true) (hm : m < (serObj o').length) :
    truncCandidate (truncRaw objs o' m) = serArr objs := by
  unfold truncCandidate
  rw [pyRfind_truncRaw hobjs hgood' hm, if_pos (by omega)]
  have htoNat : (((serArrInner objs).length : Int) + 1).toNat =
      (serArrInner objs).length + 1 := by omega
  rw [htoNat]
  show (cLS :: (serArrInner objs ++ ',' :: (serObj o').take m)).take
      ((serArrInner objs).length + 1) ++ [cRS] = serArr objs
  rw [List.take_succ_cons, List.take_append_of_le_length (le_refl _),
    List.take_length]
  rfl

/-! ### Round-trip: the repaired candidate parses back to the object list -/

theorem skipWs_cons_neg {c : Char} (t : List Char) (hc : isJsonWs c = false) :
    skipWs (c :: t) = c :: t := by
  unfold skipWs
  rw [List.dropWhile_cons]
  simp [hc]

theorem parseStringBody_ser : ∀ (s : List Char), goodStr s = true →
    ∀ r, parseStringBody (s ++ cQuote :: r) = some (s, r) := by
  intro s
  induction s with
  | nil =>
    intro _ r
    show parseStringBody (cQuote :: r) = some ([], r)
    rw [parseStringBody.eq_def]
    dsimp only
    rw [if_pos rfl]
  | cons c t ih =>
    intro hg r
    have hgc : goodChar c = true := by
      unfold goodStr at hg
      exact (List.all_eq_true.mp hg) c (List.mem_cons_self c t)
    have hgt : goodStr t = true := by
      unfold goodStr at hg ⊢
      rw [List.all_cons, Bool.and_eq_true] at hg
      exact hg.2
    obtain ⟨hq, hb, -, -, -, -, -, h32⟩ := goodChar_ne c hgc
    show parseStringBody (c :: (t ++ cQuote :: r)) = some (c :: t, r)
    rw [parseStringBody.eq_def]
    dsimp only
    rw [if_neg hq, if_neg hb, if_neg (by omega : ¬ c.toNat < 32), ih hgt r]
    rfl

theorem parseVal_str_ser (f : Nat) (s r : List Char) (hg : goodStr s = true)
    (hf : 1 ≤ f) : parseVal f (serStr s ++ r) = some (.str s, r) := by
  obtain ⟨f1, rfl⟩ : ∃ f1, f = f1 + 1 := ⟨f - 1, by omega⟩
  have hnorm : serStr s ++ r = cQuote :: (s ++ cQuote :: r) := by
    simp [serStr]
  rw [hnorm, parseVal, skipWs_cons_neg _ (by decide)]
  dsimp only
  rw [if_neg (by decide), if_neg (by decide), if_pos rfl,
    parseStringBody_ser s hg r]

theorem parseObjMembers_ser : ∀ (o : List (List Char × List Char)), o ≠ [] →
    goodObj o = true →
    ∀ (f : Nat) (acc : List (List Char × Json)) (r : List Char),
      o.length + 1 ≤ f →
      parseObjMembers f (serObjBody o ++ cRB :: r) acc =
        some (objDictFrom acc o, r) := by
  intro o
  induction o with
  | nil => intro h; cases h rfl
  | cons kv o2 ih =>
    intro _ hg f acc r hf
    obtain ⟨k, v⟩ := kv
    simp only [goodObj, List.all_cons, Bool.and_eq_true] at hg
    have hgk : goodStr k = true := hg.1.1
    have hgv : goodStr v = true := hg.1.2
    obtain ⟨f1, rfl⟩ : ∃ f1, f = f1 + 1 := ⟨f - 1, by omega⟩
    have hf1 : 1 ≤ f1 := by
      simp only [List.length_cons] at hf
      omega
    cases o2 with
    | nil =>
      have hnorm : serObjBody [(k, v)] ++ cRB :: r =
          cQuote :: (k ++ cQuote :: ':' :: (serStr v ++ cRB :: r)) := by
        show serPair (k, v) ++ cRB :: r = _
        simp [serPair, serStr]
      rw [hnorm, parseObjMembers, skipWs_cons_neg _ (by decide)]
      dsimp only
      rw [if_pos rfl, parseStringBody_ser k hgk _]
      dsimp only
      rw [skipWs_cons_neg _ (by decide)]
      dsimp only
      rw [if_pos rfl, parseVal_str_ser f1 v (cRB :: r) hgv hf1]
      dsimp only
      rw [skipWs_cons_neg _ (by decide)]
      dsimp only
      rw [if_neg (by decide), if_pos rfl]
      rfl
    | cons kv2 o3 =>
      have hnorm : serObjBody ((k, v) :: kv2 :: o3) ++ cRB :: r =
          cQuote :: (k ++ cQuote :: ':' ::
            (serStr v ++ ',' :: (serObjBody (kv2 :: o3) ++ cRB :: r))) := by
        show (serPair (k, v) ++ ',' :: serObjBody (kv2 :: o3)) ++ cRB :: r = _
        simp [serPair, serStr]
      rw [hnorm, parseObjMembers, skipWs_cons_neg _ (by decide)]
      dsimp only
      rw [if_pos rfl, parseStringBody_ser k hgk _]
      dsimp only
      rw [skipWs_cons_neg _ (by decide)]
      dsimp only
      rw [if_pos rfl,
        parseVal_str_ser f1 v (',' :: (serObjBody (kv2 :: o3) ++ cRB :: r)) hgv hf1]
      dsimp only
      rw [skipWs_cons_neg _ (by decide)]
      dsimp only
      rw [if_pos rfl]
      have hlen2 : (kv2 :: o3).length + 1 ≤ f1 := by
        simp only [List.length_cons] at hf ⊢
        omega
      have hg2 : goodObj (kv2 :: o3) = true := hg.2
      exact ih (by simp) hg2 f1 (dictInsert acc k (.str v)) r hlen2

theorem parseObjItems_ser (o : List (List Char × List Char))
    (hg : goodObj o = true) (f : Nat) (r : List Char) (hf : o.length + 2 ≤ f) :
    parseObjItems f (serObjBody o ++ cRB :: r) = some (objDictFrom [] o, r) := by
  obtain ⟨f1, rfl⟩ : ∃ f1, f = f1 + 1 := ⟨f - 1, by omega⟩
  rw [parseObjItems]
  cases o with
  | nil =>
    rw [show serObjBody [] ++ cRB :: r = cRB :: r from rfl,
      skipWs_cons_neg _ (by decide)]
    dsimp only
    rw [if_pos rfl]
    rfl
  | cons kv o2 =>
    have hhead : ∃ w, serObjBody (kv :: o2) ++ cRB :: r = cQuote :: w := by
      obtain ⟨k, v⟩ := kv
      cases o2 with
      | nil => exact ⟨_, rfl⟩
      | cons kv2 o3 => exact ⟨_, rfl⟩
    obtain ⟨w, hw⟩ := hhead
    rw [hw, skipWs_cons_neg _ (by decide)]
    dsimp only
    rw [if_neg (by decide), ← hw]
    exact parseObjMembers_ser (kv :: o2) (by simp) hg f1 [] r
      (by simp only [List.length_cons] at hf ⊢; omega)

theorem parseVal_obj_ser (o : List (List Char × List Char))
    (hg : goodObj o = true) (f : Nat) (r : List Char) (hf : o.length + 3 ≤ f) :
    parseVal f (serObj o ++ r) = some (objJson o, r) := by
  obtain ⟨f1, rfl⟩ : ∃ f1, f = f1 + 1 := ⟨f - 1, by omega⟩
  have hnorm : serObj o ++ r = cLB :: (serObjBody o ++ cRB :: r) := by
    simp [serObj]
  rw [hnorm, parseVal, skipWs_cons_neg _ (by decide)]
  dsimp only
  rw [if_pos rfl, parseObjItems_ser o hg f1 r (by omega)]
  rfl

theorem parseArrMembers_ser : ∀ (objs : List (List (List Char × List Char))),
    objs ≠ [] → objs.all goodObj = true →
    ∀ (f : Nat) (acc : List Json) (r : List Char),
      (∀ o ∈ objs, objs.length + o.length + 3 ≤ f) →
      parseArrMembers f (serArrInner objs ++ cRS :: r) acc =
        some (acc ++ objs.map objJson, r) := by
  intro objs
  induction objs with
  | nil => intro h; cases h rfl
  | cons o rest ih =>
    intro _ hg f acc r hf
    simp only [List.all_cons, Bool.and_eq_true] at hg
    obtain ⟨f1, rfl⟩ : ∃ f1, f = f1 + 1 :=
      ⟨f - 1, by have := hf o (List.mem_cons_self o rest); omega⟩
    have hfo : o.length + 3 ≤ f1 := by
      have := hf o (List.mem_cons_self o rest)
      simp only [List.length_cons] at this
      omega
    rw [parseArrMembers]
    cases rest with
    | nil =>
      rw [show serArrInner [o] ++ cRS :: r = serObj o ++ cRS :: r from rfl,
        parseVal_obj_ser o hg.1 f1 (cRS :: r) hfo]
      dsimp only
      rw [skipWs_cons_neg _ (by decide)]
      dsimp only
      rw [if_neg (by decide), if_pos rfl]
      rfl
    | cons o2 rest2 =>
      have hnorm : serArrInner (o :: o2 :: rest2) ++ cRS :: r =
          serObj o ++ (',' :: (serArrInner (o2 :: rest2) ++ cRS :: r)) := by
        show (serObj o ++ ',' :: serArrInner (o2 :: rest2)) ++ cRS :: r = _
        rw [List.append_assoc, List.cons_append]
      rw [hnorm, parseVal_obj_ser o hg.1 f1 _ hfo]
      dsimp only
      rw [skipWs_cons_neg _ (by decide)]
      dsimp only
      rw [if_pos rfl]
      have hfrest : ∀ o3 ∈ o2 :: rest2, (o2 :: rest2).length + o3.length + 3 ≤ f1 := by
        intro o3 h3
        have := hf o3 (List.mem_cons_of_mem o h3)
        simp only [List.length_cons] at this ⊢
        omega
      rw [ih (by simp) hg.2 f1 (acc ++ [objJson o]) r hfrest]
      simp [List.append_assoc]

theorem parseArrItems_ser (objs : List (List (List Char × List Char)))
    (hg : objs.all goodObj = true) (f : Nat) (r : List Char)
    (hf : ∀ o ∈ objs, objs.length + o.length + 4 ≤ f) (hf1 : 1 ≤ f) :
    parseArrItems f (serArrInner objs ++ cRS :: r) =
      some (objs.map objJson, r) := by
  obtain ⟨f1, rfl⟩ : ∃ f1, f = f1 + 1 := ⟨f - 1, by omega⟩
  rw [parseArrItems]
  cases objs with
  | nil =>
    rw [show serArrInner [] ++ cRS :: r = cRS :: r from rfl,
      skipWs_cons_neg _ (by decide)]
    dsimp only
    rw [if_pos rfl]
    rfl
  | cons o rest =>
    have hhead : ∃ w, serArrInner (o :: rest) ++ cRS :: r = cLB :: w := by
      cases rest with
      | nil => exact ⟨_, rfl⟩
      | cons o2 rest2 => exact ⟨_, rfl⟩
    obtain ⟨w, hw⟩ := hhead
    rw [hw, skipWs_cons_neg _ (by decide)]
    dsimp only
    rw [if_neg (by decide), ← hw]
    have := parseArrMembers_ser (o :: rest) (by simp) hg f1 [] r
      (fun o3 h3 => by have := hf o3 h3; omega)
    rw [this]
    rfl

/-! ### Fuel bounds for the fixed `json.loads` budget -/

theorem sepByComma_length_ge : ∀ (L : List (List Char)),
    (∀ x ∈ L, 1 ≤ x.length) → L.length ≤ (sepByComma L).length := by
  intro L
  induction L with
  | nil => intro _; simp [sepByComma]
  | cons a rest ih =>
    intro h
    cases rest with
    | nil => simpa [sepByComma] using h a (List.mem_cons_self a [])
    | cons b r2 =>
      have hr := ih (fun x hx => h x (List.mem_cons_of_mem a hx))
      show (a :: b :: r2).length ≤ (a ++ ',' :: sepByComma (b :: r2)).length
      rw [List.length_append, List.length_cons, List.length_cons,
        List.length_cons]
      have ha := h a (List.mem_cons_self a (b :: r2))
      simp only [List.length_cons] at hr
      omega

theorem sepByComma_length_mem : ∀ (L : List (List Char)) (x : List Char),
    x ∈ L → x.length ≤ (sepByComma L).length := by
  intro L
  induction L with
  | nil => intro x hx; cases hx
  | cons a rest ih =>
    intro x hx
    cases rest with
    | nil =>
      rcases List.mem_cons.mp hx with h | h
      · subst h; exact le_refl _
      · cases h
    | cons b r2 =>
      show x.length ≤ (a ++ ',' :: sepByComma (b :: r2)).length
      rw [List.length_append, List.length_cons]
      rcases List.mem_cons.mp hx with h | h
      · subst h; omega
      · have := ih x h
        omega

theorem serObj_length_ge (o : List (List Char × List Char)) :
    2 ≤ (serObj o).length := by
  unfold serObj
  simp

theorem serArrInner_length_ge_card (objs : List (List (List Char × List Char))) :
    objs.length ≤ (serArrInner objs).length := by
  unfold serArrInner
  have hall : ∀ x ∈ objs.map serObj, 1 ≤ x.length := by
    intro x hx
    obtain ⟨o, -, rfl⟩ := List.mem_map.mp hx
    have := serObj_length_ge o
    omega
  have := sepByComma_length_ge (objs.map serObj) hall
  rw [List.length_map] at this
  exact this

theorem serArrInner_length_ge_mem {objs : List (List (List Char × List Char))}
    {o : List (List Char × List Char)} (ho : o ∈ objs) :
    o.length + 2 ≤ (serArrInner objs).length := by
  have hbody : o.length ≤ (serObjBody o).length := by
    unfold serObjBody
    have hall : ∀ x ∈ o.map serPair, 1 ≤ x.length := by
      intro x hx
      obtain ⟨kv, -, rfl⟩ := List.mem_map.mp hx
      simp only [serPair, serStr, List.length_append, List.length_cons]
      omega
    have := sepByComma_length_ge (o.map serPair) hall
    rw [List.length_map] at this
    exact this
  have h1 : o.length + 2 ≤ (serObj o).length := by
    unfold serObj
    simp only [List.length_cons, List.length_append]
    simp
    omega
  have h2 : (serObj o).length ≤ (serArrInner objs).length := by
    unfold serArrInner
    exact sepByComma_length_mem (objs.map serObj) (serObj o)
      (List.mem_map_of_mem serObj ho)
  omega

theorem parseVal_arr_ser (objs : List (List (List Char × List Char)))
    (hg : objs.all goodObj = true) (f : Nat) (r : List Char)
    (hf : ∀ o ∈ objs, objs.length + o.length + 5 ≤ f) (hf2 : 2 ≤ f) :
    parseVal f (cLS :: (serArrInner objs ++ cRS :: r)) =
      some (.arr (objs.map objJson), r) := by
  obtain ⟨f1, rfl⟩ : ∃ f1, f = f1 + 1 := ⟨f - 1, by omega⟩
  rw [parseVal, skipWs_cons_neg _ (by decide)]
  dsimp only
  rw [if_neg (by decide), if_pos rfl,
    parseArrItems_ser objs hg f1 r (fun o ho => by have := hf o ho; omega)
      (by omega)]

theorem json_loads_serArr (objs : List (List (List Char × List Char)))
    (hg : objs.all goodObj = true) :
    json_loads (serArr objs) = some (.arr (objs.map objJson)) := by
  unfold json_loads
  have hlen : (serArr objs).length = (serArrInner objs).length + 2 := by
    unfold serArr
    simp
  have hbound : ∀ o ∈ objs,
      objs.length + o.length + 5 ≤ 2 * (serArr objs).length + 2 := by
    intro o ho
    have h1 := serArrInner_length_ge_card objs
    have h2 := serArrInner_length_ge_mem ho
    omega
  have hb2 : ∀ o ∈ objs, objs.length + o.length + 5 ≤
      2 * (cLS :: (serArrInner objs ++ cRS :: ([] : List Char))).length + 2 :=
    fun o ho => hbound o ho
  rw [show serArr objs = cLS :: (serArrInner objs ++ cRS :: ([] : List Char))
      from rfl,
    parseVal_arr_ser objs hg _ [] hb2 (by omega)]
  rfl

/-- C8 (amended): for every model output that is a serialized JSON array of
flat string-valued objects — keys and values avoiding braces, brackets,
quotes, backslashes, backticks and control characters — with at least one
complete object, truncated strictly inside a further object, `_repair_json`
returns exactly the array of the complete objects preceding the truncation
point, in order, discarding the trailing fragment. -/
theorem C8_truncation_recovery
    (objs : List (List (List Char × List Char)))
    (o' : List (List Char × List Char)) (m : Nat)
    (hobjs : objs ≠ []) (hgood : objs.all goodObj = true)
    (hgood' : goodObj o' = true) (hm1 : 1 ≤ m)
    (hm2 : m < (serObj o').length) :
    repair_json (truncRaw objs o' m) = .ok (.arr (objs.map objJson)) := by
  have hnRS : cRS ∉ truncRaw objs o' m := cRS_not_mem_truncRaw hgood hgood'
  have hnTick : cTick ∉ truncRaw objs o' m := cTick_not_mem_truncRaw hgood hgood'
  have hnNL : cNL ∉ truncRaw objs o' m := cNL_not_mem_truncRaw hgood hgood'
  have hhead : skipWs (truncRaw objs o' m) =
      cLS :: (serArrInner objs ++ ',' :: (serObj o').take m) :=
    skipWs_cons_neg _ (by decide)
  have hfail : json_loads (truncRaw objs o' m) = none :=
    json_loads_arr_fail _ _ hnRS hhead
  have hchunk : repairChunk (truncRaw objs o' m) = truncRaw objs o' m :=
    repairChunk_eq_self hnRS
  obtain ⟨w, hw⟩ :=
    pyStrip_cLS_head (serArrInner objs ++ ',' :: (serObj o').take m)
  have hstrip : pyStrip (fenceStrip (truncRaw objs o' m)) = cLS :: w := by
    rw [fenceStrip_id hnTick]
    exact hw
  have hsub : (cLS :: w) ⊆ truncRaw objs o' m := by
    intro x hx
    rw [← hw] at hx
    exact pyStrip_subset _ hx
  have hfail3 : json_loads (cLS :: w) = none :=
    json_loads_arr_fail _ w (fun hmem => hnRS (hsub hmem))
      (skipWs_cons_neg w (by decide))
  unfold repair_json
  rw [hfail]
  dsimp only
  rw [firstParse, hchunk, hfail]
  dsimp only
  rw [firstParse, hstrip, hfail3]
  dsimp only
  rw [firstParse, nlCollapse_id hnNL, hfail]
  dsimp only
  rw [firstParse, truncCandidate_truncRaw hobjs hgood' hm2,
    json_loads_serArr objs hgood]

theorem C8_witness :
    repair_json (truncRaw [[(S (r"a"), S (r"x"))]] [(S (r"b"), S (r"y"))] 3) =
      .ok (.arr ([[(S (r"a"), S (r"x"))]].map objJson)) :=
  C8_truncation_recovery [[(S (r"a"), S (r"x"))]] [(S (r"b"), S (r"y"))] 3
    (by decide) (by decide) (by decide) (by decide) (by decide)

end SchoolAuto
